import Mathlib

/-!
Verification of the virtual-memory management core of rCore-N
(`src/os/src/mm/memory_set.rs`): the `MemorySet` address-space object, its
`MapArea`s, and the `mmap` / `munmap` / `mmio_map` / `mmio_unmap` API.

The page-table walker, frame allocator, address types and ELF parser live
outside the provided sources; they are modelled from the specification's
external-interface contracts (spec §6), as noted on each such definition.
Machine integers (`usize`) are modelled as exact naturals; the 64-bit width
enters only where a bit mask or an `as isize` cast appears in the source.
-/

namespace RCoreN

/-- Modelled from the spec: platform page-size constant (`PAGE_SIZE`, §6),
4096 bytes on this RISC-V Sv39 target. -/
def PAGE_SIZE : Nat := 4096

/-- Modelled from the spec: `TRAMPOLINE` is the fixed highest virtual page
(one page below the top of the address space, §6). -/
def TRAMPOLINE : Nat := 2 ^ 64 - PAGE_SIZE

/-- Modelled from the spec: `TRAP_CONTEXT` is one page below `TRAMPOLINE` (§6). -/
def TRAP_CONTEXT : Nat := TRAMPOLINE - PAGE_SIZE

/-- Modelled from the spec: platform user-stack size constant (§6). -/
def USER_STACK_SIZE : Nat := 2 * PAGE_SIZE

/-- Modelled from the spec: upper end of the direct physical window (§4.2). -/
def MEMORY_END : Nat := 0x80800000

/-- Modelled from the spec: physical page of the trampoline code
(`strampoline` linker symbol); its concrete value is irrelevant here. -/
def strampolinePpn : Nat := 0x80200

/-- The virtual page number of the trampoline page. -/
def TRAMP_VPN : Nat := TRAMPOLINE / PAGE_SIZE

/-- Bitwise complement on a 64-bit `usize` (`!x` in Rust). -/
def usizeNot (x : Nat) : Nat := 2 ^ 64 - 1 - x

/-- The Rust `as isize` cast of a `usize` value. -/
def usizeToIsize (n : Nat) : Int :=
  if n < 2 ^ 63 then (n : Int) else (n : Int) - 2 ^ 64

/-- Modelled from the spec: `VirtAddr::floor`, the page number holding a byte
address (glossary: address shifted right by the page size). -/
def floorVpn (va : Nat) : Nat := va / PAGE_SIZE

/-- Modelled from the spec: `VirtAddr::ceil`, the first page boundary at or
above a byte address. -/
def ceilVpn (va : Nat) : Nat := (va + PAGE_SIZE - 1) / PAGE_SIZE

/-! ### Association lists

Finite maps used for the page-table leaf entries and for `data_frames`
(`BTreeMap<VirtPageNum, FrameTracker>` in the source). -/

def alLookup {α : Type} (l : List (Nat × α)) (k : Nat) : Option α :=
  match l with
  | [] => none
  | e :: rest => if e.1 = k then some e.2 else alLookup rest k

def alErase {α : Type} (l : List (Nat × α)) (k : Nat) : List (Nat × α) :=
  l.filter (fun e => decide (e.1 ≠ k))

def alInsert {α : Type} (l : List (Nat × α)) (k : Nat) (v : α) : List (Nat × α) :=
  (k, v) :: alErase l k

/-! ### Page table

Modelled from the spec (§6 page-table contract): a root frame giving the
activation token, plus the finite map of leaf entries; `map` inserts a leaf
PTE, `unmap` clears it, `translate` returns the current leaf if present.
PTE flag bits coincide bit-for-bit with `MapPermission` bits (§6). -/

structure PTE where
  ppn : Nat
  flags : Nat
  deriving DecidableEq, Repr

structure PageTable where
  root : Nat
  entries : List (Nat × PTE)
  deriving DecidableEq, Repr

def PageTable.map (pt : PageTable) (vpn ppn flags : Nat) : PageTable :=
  { pt with entries := alInsert pt.entries vpn ⟨ppn, flags⟩ }

def PageTable.unmap (pt : PageTable) (vpn : Nat) : PageTable :=
  { pt with entries := alErase pt.entries vpn }

def PageTable.translate (pt : PageTable) (vpn : Nat) : Option PTE :=
  alLookup pt.entries vpn

/-- Modelled from the spec: the activation token is determined by the
page-table root (§6). -/
def PageTable.token (pt : PageTable) : Nat := pt.root

/-! ### VPN ranges and map areas (`memory_set.rs` lines 428-532) -/

structure VPNRange where
  l : Nat
  r : Nat
  deriving DecidableEq, Repr

/-- Modelled from the spec: two half-open VPN ranges overlap when they share
a page (used by `mmap`/`munmap` overlap detection, §4.2). -/
def VPNRange.is_overlapped (a b : VPNRange) : Bool :=
  decide (a.l < b.r) && decide (b.l < a.r)

/-- The pages of a range, in iteration order (`for vpn in self.vpn_range`). -/
def vpnList (rng : VPNRange) : List Nat := List.range' rng.l (rng.r - rng.l)

inductive MapType where
  | Identical
  | Framed
  | Mmio
  deriving DecidableEq, Repr

/-- `MapPermission` bits (source lines 525-532): R=2, W=4, X=8, U=16. -/
def MapPermission.R : Nat := 2
def MapPermission.W : Nat := 4
def MapPermission.X : Nat := 8
def MapPermission.U : Nat := 16

/-- `MapArea` (source lines 428-433).  `data_frames` maps each framed VPN to
the physical page of its exclusively owned frame. -/
structure MapArea where
  vpn_range : VPNRange
  data_frames : List (Nat × Nat)
  map_type : MapType
  map_perm : Nat
  deriving DecidableEq, Repr

/-- `MapArea::new` (lines 436-450): normalize to `[floor start, ceil end)`. -/
def MapArea.new (start_va end_va : Nat) (t : MapType) (perm : Nat) : MapArea :=
  ⟨⟨floorVpn start_va, ceilVpn end_va⟩, [], t, perm⟩

/-- `MapArea::from_another` (lines 451-458): copy shape, no frames. -/
def MapArea.from_another (a : MapArea) : MapArea :=
  ⟨⟨a.vpn_range.l, a.vpn_range.r⟩, [], a.map_type, a.map_perm⟩

/-- `MapArea::map_one` (lines 459-477).  The frame allocator is modelled from
the spec (§6) as a fresh-page counter `al`: allocation yields page `al` and
advances the counter; exhaustion is fatal in the source and therefore not a
returnable outcome. -/
def map_one (a : MapArea) (pt : PageTable) (al : Nat) (vpn : Nat) :
    MapArea × PageTable × Nat :=
  match a.map_type with
  | .Identical => (a, pt.map vpn vpn a.map_perm, al)
  | .Mmio => (a, pt.map vpn vpn a.map_perm, al)
  | .Framed =>
      ({ a with data_frames := alInsert a.data_frames vpn al },
       pt.map vpn al a.map_perm, al + 1)

/-- `MapArea::unmap_one` (lines 478-483). -/
def unmap_one (a : MapArea) (pt : PageTable) (vpn : Nat) : MapArea × PageTable :=
  match a.map_type with
  | .Framed => ({ a with data_frames := alErase a.data_frames vpn }, pt.unmap vpn)
  | _ => (a, pt.unmap vpn)

def mapFold : List Nat → MapArea → PageTable → Nat → MapArea × PageTable × Nat
  | [], a, pt, al => (a, pt, al)
  | v :: rest, a, pt, al =>
      let r := map_one a pt al v
      mapFold rest r.1 r.2.1 r.2.2

/-- `MapArea::map` (lines 484-488). -/
def MapArea.map (a : MapArea) (pt : PageTable) (al : Nat) :
    MapArea × PageTable × Nat :=
  mapFold (vpnList a.vpn_range) a pt al

def unmapFold : List Nat → MapArea → PageTable → MapArea × PageTable
  | [], a, pt => (a, pt)
  | v :: rest, a, pt =>
      let r := unmap_one a pt v
      unmapFold rest r.1 r.2

/-- `MapArea::unmap` (lines 489-493). -/
def MapArea.unmap (a : MapArea) (pt : PageTable) : MapArea × PageTable :=
  unmapFold (vpnList a.vpn_range) a pt

/-! ### MemorySet (source lines 31-426) -/

structure MemorySet where
  page_table : PageTable
  areas : List MapArea
  deriving DecidableEq, Repr

/-- `MemorySet::new_bare` (lines 37-42); `PageTable::new` draws the root
frame from the allocator. -/
def MemorySet.new_bare (al : Nat) : MemorySet × Nat :=
  (⟨⟨al, []⟩, []⟩, al + 1)

def MemorySet.token (m : MemorySet) : Nat := m.page_table.token

def MemorySet.translate (m : MemorySet) (vpn : Nat) : Option PTE :=
  m.page_table.translate vpn

/-- `MemorySet::push` (lines 69-75), without the optional data copy (the
data copy writes page contents only; see `copyRange` for the clone path). -/
def MemorySet.push (m : MemorySet) (a : MapArea) (al : Nat) : MemorySet × Nat :=
  let r := a.map m.page_table al
  (⟨r.2.1, m.areas ++ [r.1]⟩, r.2.2)

/-- `MemorySet::insert_framed_area` (lines 47-57). -/
def MemorySet.insert_framed_area (m : MemorySet) (al : Nat)
    (start_va end_va perm : Nat) : MemorySet × Nat :=
  m.push (MapArea.new start_va end_va .Framed perm) al

/-- `MemorySet::map_trampoline` (lines 77-83): installed directly into the
page table with R|X, not recorded as an area. -/
def MemorySet.map_trampoline (m : MemorySet) : MemorySet :=
  ⟨m.page_table.map TRAMP_VPN strampolinePpn (MapPermission.R ||| MapPermission.X),
   m.areas⟩

def removeFirstStart : PageTable → List MapArea → Nat → PageTable × List MapArea
  | pt, [], _ => (pt, [])
  | pt, a :: rest, v =>
      if a.vpn_range.l = v then ((a.unmap pt).2, rest)
      else
        let r := removeFirstStart pt rest v
        (r.1, a :: r.2)

/-- `MemorySet::remove_area_with_start_vpn` (lines 58-68): unmap and drop the
first area whose start VPN matches; no-op if none. -/
def MemorySet.remove_area_with_start_vpn (m : MemorySet) (v : Nat) : MemorySet :=
  let r := removeFirstStart m.page_table m.areas v
  ⟨r.1, r.2⟩

/-- `MemorySet::is_mapped_area` (lines 278-288). -/
def MemorySet.is_mapped_area (m : MemorySet) (sVpn eVpn : Nat) : Bool :=
  m.areas.any (fun a => a.vpn_range.is_overlapped ⟨sVpn, eVpn⟩)

/-- `MemorySet::recycle_data_pages` (lines 422-425): `self.areas.clear()`.
Clearing the vector drops each `MapArea`, and dropping a `FrameTracker`
returns its frame to the allocator (spec §6 frame-allocator contract); the
second component lists the physical pages so released. -/
def MemorySet.recycle_data_pages (m : MemorySet) : MemorySet × List Nat :=
  (⟨m.page_table, []⟩,
   m.areas.foldr
     (fun a acc =>
       match a.map_type with
       | .Framed => a.data_frames.map (fun e => e.2) ++ acc
       | _ => acc)
     [])

/-- `MemorySet::mmap` (lines 290-311). -/
def MemorySet.mmap (m : MemorySet) (al : Nat) (start len port : Nat) :
    Except Int Int × MemorySet × Nat :=
  if port &&& usizeNot 7 ≠ 0 ∨ port &&& 7 = 0 ∨ len > 1 <<< 30 then
    (.error (-1), m, al)
  else if start % PAGE_SIZE ≠ 0 then
    (.error (-1), m, al)
  else if m.is_mapped_area (floorVpn start)
      (floorVpn (ceilVpn (start + len) * PAGE_SIZE)) then
    (.error (-1), m, al)
  else
    (.ok (usizeToIsize (ceilVpn (start + len) * PAGE_SIZE - start)),
     m.insert_framed_area al start (ceilVpn (start + len) * PAGE_SIZE)
       ((port <<< 1) ||| 0b10000))

/-! `munmap` helpers.  The source enumerates the indices of the overlapping
areas, sorts them by the covered area's start VPN, walks them checking exact
tiling, then removes them in descending index order.  We carry `(index,
area)` pairs so that `self.areas[*i]` is available without re-indexing; the
descending removal keeps every remaining index stable, so the pair's area is
the one removed. -/

def insertLe {α : Type} (le : α → α → Bool) (x : α) : List α → List α
  | [] => [x]
  | y :: ys => if le x y then x :: y :: ys else y :: insertLe le x ys

def sortLe {α : Type} (le : α → α → Bool) : List α → List α
  | [] => []
  | x :: xs => insertLe le x (sortLe le xs)

def enumIdx {α : Type} (n : Nat) : List α → List (Nat × α)
  | [] => []
  | x :: xs => (n, x) :: enumIdx (n + 1) xs

/-- The validation walk of `munmap` (lines 333-342): starting from the
(aligned) request start, each successive covered area must begin exactly at
the current address; returns the address reached past the last area. -/
def loopCheck : Nat → List (Nat × MapArea) → Option Nat
  | cur, [] => some cur
  | cur, p :: rest =>
      if cur = p.2.vpn_range.l * PAGE_SIZE then
        loopCheck (p.2.vpn_range.r * PAGE_SIZE) rest
      else none

def removeFold : List (Nat × MapArea) → PageTable → List MapArea →
    PageTable × List MapArea
  | [], pt, xs => (pt, xs)
  | p :: rest, pt, xs => removeFold rest (p.2.unmap pt).2 (xs.eraseIdx p.1)

/-- The `to_unmap` computation of `munmap` (lines 320-331): the indexed
areas overlapping the request, sorted ascending by the area's start VPN. -/
def munmapCovered (m : MemorySet) (s e : Nat) : List (Nat × MapArea) :=
  sortLe (fun p q => Nat.ble p.2.vpn_range.l q.2.vpn_range.l)
    ((enumIdx 0 m.areas).filter
      (fun p => p.2.vpn_range.is_overlapped ⟨s, e⟩))

/-- The removal loop of `munmap` (lines 344-349), in descending index
order. -/
def munmapRemove (m : MemorySet) (s e : Nat) : PageTable × List MapArea :=
  removeFold (sortLe (fun p q => Nat.ble q.1 p.1) (munmapCovered m s e))
    m.page_table m.areas

/-- `MemorySet::munmap` (lines 313-352). -/
def MemorySet.munmap (m : MemorySet) (al : Nat) (start len : Nat) :
    Except Int Int × MemorySet × Nat :=
  if start % PAGE_SIZE ≠ 0 then
    (.error (-1), m, al)
  else
    match loopCheck start (munmapCovered m (floorVpn start) (ceilVpn (start + len))) with
    | none => (.error (-1), m, al)
    | some cur =>
        if cur ≠ ceilVpn (start + len) * PAGE_SIZE then
          (.error (-1), m, al)
        else
          (.ok (usizeToIsize len),
           ⟨(munmapRemove m (floorVpn start) (ceilVpn (start + len))).1,
            (munmapRemove m (floorVpn start) (ceilVpn (start + len))).2⟩, al)

/-- `MemorySet::mmio_map` (lines 354-378).  The `(end - start)` subtraction
sits in the first `if`, after the two short-circuited port tests; on
`end < start` it underflows `usize` and aborts, modelled as `none`. -/
def MemorySet.mmio_map (m : MemorySet) (al : Nat) (start endA port : Nat) :
    Option (Except Int Int × MemorySet × Nat) :=
  if port &&& usizeNot 7 ≠ 0 ∨ port &&& 7 = 0 then
    some (.error (-1), m, al)
  else if endA < start then
    none
  else if endA - start > 1 <<< 30 then
    some (.error (-1), m, al)
  else if start % PAGE_SIZE ≠ 0 then
    some (.error (-1), m, al)
  else if m.is_mapped_area (floorVpn start) (ceilVpn endA) then
    some (.error (-1), m, al)
  else
    some (.ok (usizeToIsize (ceilVpn endA * PAGE_SIZE - start)),
      m.push (MapArea.new start (ceilVpn endA * PAGE_SIZE) .Mmio
        ((port <<< 1) ||| 0b10000)) al)

/-- `MemorySet::mmio_unmap` (lines 380-420): as `munmap` over a `[start,
end)` byte range; the final `Ok((end - start) as isize)` underflows when
`end < start`, modelled as `none`. -/
def MemorySet.mmio_unmap (m : MemorySet) (al : Nat) (start endA : Nat) :
    Option (Except Int Int × MemorySet × Nat) :=
  if start % PAGE_SIZE ≠ 0 then
    some (.error (-1), m, al)
  else
    match loopCheck start (munmapCovered m (floorVpn start) (ceilVpn endA)) with
    | none => some (.error (-1), m, al)
    | some cur =>
        if cur ≠ ceilVpn endA * PAGE_SIZE then
          some (.error (-1), m, al)
        else if endA < start then none
        else
          some (.ok (usizeToIsize (endA - start)),
            ⟨(munmapRemove m (floorVpn start) (ceilVpn endA)).1,
             (munmapRemove m (floorVpn start) (ceilVpn endA)).2⟩, al)

/-! ### Kernel space construction (`new_kernel`, lines 85-179)

The linker section symbols are external inputs; `new_kernel` is the sequence
of identity / MMIO pushes written in the source (qemu board), expressed as a
fold over the pushed descriptors. -/

structure KernelSections where
  stext : Nat
  etext : Nat
  srodata : Nat
  erodata : Nat
  sdata : Nat
  edata : Nat
  sbss_with_stack : Nat
  ebss : Nat
  ekernel : Nat
  deriving DecidableEq, Repr

/-- The `(start_va, end_va, map_type, perm)` descriptors pushed by
`new_kernel`, in source order (`.text`, `.rodata`, `.data`, `.bss`, physical
window, PLIC, qemu UART). -/
def kernelSpecs (k : KernelSections) : List (Nat × Nat × MapType × Nat) :=
  [(k.stext, k.etext, .Identical, MapPermission.R ||| MapPermission.X),
   (k.srodata, k.erodata, .Identical, MapPermission.R),
   (k.sdata, k.edata, .Identical, MapPermission.R ||| MapPermission.W),
   (k.sbss_with_stack, k.ebss, .Identical, MapPermission.R ||| MapPermission.W),
   (k.ekernel, MEMORY_END, .Identical, MapPermission.R ||| MapPermission.W),
   (0xc000000, 0x10000000, .Mmio, MapPermission.R ||| MapPermission.W),
   (0x10000000, 0x10000300, .Mmio, MapPermission.R ||| MapPermission.W)]

def pushSpecs : List (Nat × Nat × MapType × Nat) → MemorySet → Nat →
    MemorySet × Nat
  | [], m, al => (m, al)
  | s :: rest, m, al =>
      let r := m.push (MapArea.new s.1 s.2.1 s.2.2.1 s.2.2.2) al
      pushSpecs rest r.1 r.2

/-- `MemorySet::new_kernel` (lines 85-179). -/
def MemorySet.new_kernel (k : KernelSections) (al : Nat) : MemorySet × Nat :=
  let b := MemorySet.new_bare al
  pushSpecs (kernelSpecs k) b.1.map_trampoline b.2

/-! ### ELF loading (`from_elf`, lines 182-247)

Modelled from the spec: ELF parsing is an external collaborator consumed
read-only (§6); an image is abstracted as its magic validity, the list of
LOAD program headers, and the entry point.  The per-segment data copy writes
page contents only (no page-table or area effect) and no claim below
observes the bytes an ELF load writes, so it is not threaded here. -/

structure LoadSeg where
  vaddr : Nat
  mem_size : Nat
  readF : Bool
  writeF : Bool
  execF : Bool
  deriving DecidableEq, Repr

structure ElfImage where
  magicOk : Bool
  segs : List LoadSeg
  entry : Nat
  deriving DecidableEq, Repr

def segPerm (s : LoadSeg) : Nat :=
  MapPermission.U
    ||| (if s.readF then MapPermission.R else 0)
    ||| (if s.writeF then MapPermission.W else 0)
    ||| (if s.execF then MapPermission.X else 0)

/-- The LOAD loop of `from_elf` (lines 193-216): push a framed area per
segment and record the (last) area's end VPN in `max_end_vpn`. -/
def elfLoadFold : List LoadSeg → MemorySet → Nat → Nat → MemorySet × Nat × Nat
  | [], m, al, maxEnd => (m, al, maxEnd)
  | s :: rest, m, al, _ =>
      let a := MapArea.new s.vaddr (s.vaddr + s.mem_size) .Framed (segPerm s)
      let r := m.push a al
      elfLoadFold rest r.1 r.2 a.vpn_range.r

/-- `MemorySet::from_elf` (lines 182-247), returning the space, allocator
state, `user_sp` and entry point; `none` models the failed magic assert. -/
def MemorySet.from_elf (img : ElfImage) (al : Nat) :
    Option (MemorySet × Nat × Nat × Nat) :=
  if img.magicOk = false then none
  else
    let b := MemorySet.new_bare al
    let r := elfLoadFold img.segs b.1.map_trampoline b.2 0
    let user_stack_bottom := r.2.2 * PAGE_SIZE + PAGE_SIZE
    let user_stack_top := user_stack_bottom + USER_STACK_SIZE
    let r2 := r.1.push
      (MapArea.new user_stack_bottom user_stack_top .Framed
        (MapPermission.R ||| MapPermission.W ||| MapPermission.U)) r.2.1
    let r3 := r2.1.push
      (MapArea.new TRAP_CONTEXT TRAMPOLINE .Framed
        (MapPermission.R ||| MapPermission.W)) r2.2
    some (r3.1, r3.2, user_stack_top, img.entry)

/-! ### Address-space cloning (`from_existed_user`, lines 248-266)

Physical memory is modelled at page granularity: `Mem` sends a physical page
to its byte contents.  `ppn.get_bytes_array().copy_from_slice(..)` on whole
pages is the page assignment `memCopy`. -/

def Mem : Type := Nat → Nat → Nat

def memCopy (mem : Mem) (dst src : Nat) : Mem :=
  fun p => if p = dst then mem src else mem p

/-- The inner copy loop of `from_existed_user` (lines 256-263): for each VPN
of the area just pushed, copy the page at the source's translation to the
page at the clone's translation; a failed `unwrap` of either translation is
`none`. -/
def copyRange (src dst : MemorySet) : List Nat → Mem → Option Mem
  | [], mem => some mem
  | v :: rest, mem =>
      match src.translate v, dst.translate v with
      | some spte, some dpte => copyRange src dst rest (memCopy mem dpte.ppn spte.ppn)
      | _, _ => none

def cloneAreasFold (src : MemorySet) :
    List MapArea → MemorySet → Nat → Mem → Option (MemorySet × Nat × Mem)
  | [], m, al, mem => some (m, al, mem)
  | a :: rest, m, al, mem =>
      let r := m.push a.from_another al
      match copyRange src r.1 (vpnList a.vpn_range) mem with
      | none => none
      | some mem' => cloneAreasFold src rest r.1 r.2 mem'

/-- `MemorySet::from_existed_user` (lines 248-266). -/
def MemorySet.from_existed_user (src : MemorySet) (al : Nat) (mem : Mem) :
    Option (MemorySet × Nat × Mem) :=
  let b := MemorySet.new_bare al
  cloneAreasFold src src.areas b.1.map_trampoline b.2 mem

/-! ## Basic lemmas -/

theorem PAGE_SIZE_pos : 0 < PAGE_SIZE := by norm_num [PAGE_SIZE]

theorem floorVpn_mul (x : Nat) : floorVpn (x * PAGE_SIZE) = x := by
  simp [floorVpn, Nat.mul_div_cancel _ PAGE_SIZE_pos]

theorem ceilVpn_ge (x : Nat) : x ≤ ceilVpn x * PAGE_SIZE := by
  simp only [ceilVpn, PAGE_SIZE]
  omega

theorem ceilVpn_le (x : Nat) : ceilVpn x * PAGE_SIZE ≤ x + PAGE_SIZE - 1 := by
  simp only [ceilVpn, PAGE_SIZE]
  omega

theorem ceilVpn_mul (x : Nat) : ceilVpn (x * PAGE_SIZE) = x := by
  simp only [ceilVpn, PAGE_SIZE]
  omega

theorem floorVpn_le_ceilVpn (x : Nat) : floorVpn x ≤ ceilVpn x := by
  simp only [floorVpn, ceilVpn, PAGE_SIZE]
  omega

theorem floorVpn_lt_ceilVpn_of_lt (x y : Nat) (h : x < y) (ha : x % PAGE_SIZE = 0) :
    floorVpn x < ceilVpn y := by
  simp only [floorVpn, ceilVpn, PAGE_SIZE] at *
  omega

theorem alLookup_erase {α : Type} (l : List (Nat × α)) (k j : Nat) :
    alLookup (alErase l k) j = if j = k then none else alLookup l j := by
  induction l with
  | nil => simp [alErase, alLookup]
  | cons e rest ih =>
      by_cases hek : e.1 = k
      · have h1 : alErase (e :: rest) k = alErase rest k := by
          simp [alErase, List.filter_cons, hek]
        rw [h1, ih]
        by_cases hjk : j = k
        · simp [hjk]
        · have hej : e.1 ≠ j := by rw [hek]; exact fun h => hjk h.symm
          simp [alLookup, hjk, hej]
      · have h1 : alErase (e :: rest) k = e :: alErase rest k := by
          simp [alErase, List.filter_cons, hek]
        rw [h1]
        by_cases hje : e.1 = j
        · have hjk : j ≠ k := by rw [← hje]; exact hek
          simp [alLookup, hje, hjk]
        · simp [alLookup, hje, ih]

theorem alLookup_insert {α : Type} (l : List (Nat × α)) (k : Nat) (v : α) (j : Nat) :
    alLookup (alInsert l k v) j = if j = k then some v else alLookup l j := by
  by_cases hjk : j = k <;>
    simp_all [alInsert, alLookup, alLookup_erase, fun h => Ne.symm h]

theorem translate_map (pt : PageTable) (vpn ppn flags j : Nat) :
    (pt.map vpn ppn flags).translate j =
      if j = vpn then some ⟨ppn, flags⟩ else pt.translate j := by
  simp [PageTable.map, PageTable.translate, alLookup_insert]

theorem translate_unmap (pt : PageTable) (vpn j : Nat) :
    (pt.unmap vpn).translate j = if j = vpn then none else pt.translate j := by
  simp [PageTable.unmap, PageTable.translate, alLookup_erase]

theorem mem_vpnList (rng : VPNRange) (v : Nat) :
    v ∈ vpnList rng ↔ rng.l ≤ v ∧ v < rng.r := by
  rw [vpnList, List.mem_range'_1]
  omega

/-! Bit-level bridges for the `port` checks. -/

theorem exists_testBit_of_ne_zero : ∀ n : Nat, n ≠ 0 → ∃ i, n.testBit i = true := by
  intro n
  induction n using Nat.strong_induction_on with
  | _ n ih =>
      intro hn
      rcases Nat.even_or_odd n with he | ho
      · have hhalf : n / 2 ≠ 0 := by
          rcases he with ⟨k, hk⟩
          omega
        have hlt : n / 2 < n := Nat.div_lt_self (Nat.pos_of_ne_zero hn) (by norm_num)
        obtain ⟨i, hi⟩ := ih (n / 2) hlt hhalf
        exact ⟨i + 1, by rwa [Nat.testBit_succ]⟩
      · refine ⟨0, ?_⟩
        rcases ho with ⟨k, hk⟩
        simp [Nat.testBit, Nat.shiftRight, hk, Nat.one_and_eq_mod_two]
        omega

theorem usizeNot7_eq : usizeNot 7 = (2 ^ 61 - 1) <<< 3 := by decide

theorem testBit_usizeNot7 (i : Nat) :
    (usizeNot 7).testBit i = (decide (3 ≤ i) && decide (i < 64)) := by
  rw [usizeNot7_eq, Nat.testBit_shiftLeft, Nat.testBit_two_pow_sub_one]
  rcases Nat.lt_or_ge i 3 with h | h
  · simp [Nat.not_le.mpr h, show ¬ 3 ≤ i from Nat.not_le.mpr h]
  · simp [h, ge_iff_le]
    omega

theorem port_high_bits (port : Nat) (hport : port < 2 ^ 64) :
    port &&& usizeNot 7 ≠ 0 ↔ ∃ i, 3 ≤ i ∧ port.testBit i = true := by
  constructor
  · intro h
    obtain ⟨i, hi⟩ := exists_testBit_of_ne_zero _ h
    rw [Nat.testBit_land, testBit_usizeNot7] at hi
    simp only [Bool.and_eq_true, decide_eq_true_eq] at hi
    exact ⟨i, hi.2.1, hi.1⟩
  · rintro ⟨i, h3, hb⟩ h0
    have hi64 : i < 64 := by
      have := Nat.testBit_implies_ge hb
      by_contra hge
      push_neg at hge
      have : (2 : Nat) ^ 64 ≤ 2 ^ i := Nat.pow_le_pow_right (by norm_num) hge
      omega
    have : (port &&& usizeNot 7).testBit i = true := by
      rw [Nat.testBit_land, testBit_usizeNot7]
      simp [hb, h3, hi64]
    rw [h0, Nat.zero_testBit] at this
    exact Bool.false_ne_true this

/-! ## Mapping and unmapping an area: page-table effect -/

/-- A VPN lies in an area's range. -/
def inArea (a : MapArea) (v : Nat) : Prop :=
  a.vpn_range.l ≤ v ∧ v < a.vpn_range.r

instance (a : MapArea) (v : Nat) : Decidable (inArea a v) := by
  unfold inArea
  infer_instance

theorem map_one_shape (a : MapArea) (pt : PageTable) (al v : Nat) :
    (map_one a pt al v).1.vpn_range = a.vpn_range ∧
    (map_one a pt al v).1.map_type = a.map_type ∧
    (map_one a pt al v).1.map_perm = a.map_perm ∧
    (map_one a pt al v).2.1.root = pt.root := by
  cases h : a.map_type <;> simp [map_one, h, PageTable.map]

theorem mapFold_shape : ∀ (vs : List Nat) (a : MapArea) (pt : PageTable) (al : Nat),
    (mapFold vs a pt al).1.vpn_range = a.vpn_range ∧
    (mapFold vs a pt al).1.map_type = a.map_type ∧
    (mapFold vs a pt al).1.map_perm = a.map_perm ∧
    (mapFold vs a pt al).2.1.root = pt.root := by
  intro vs
  induction vs with
  | nil => intro a pt al; simp [mapFold]
  | cons v rest ih =>
      intro a pt al
      obtain ⟨s1, s2, s3, s4⟩ := map_one_shape a pt al v
      obtain ⟨t1, t2, t3, t4⟩ :=
        ih (map_one a pt al v).1 (map_one a pt al v).2.1 (map_one a pt al v).2.2
      exact ⟨by rw [mapFold]; rw [t1, s1], by rw [mapFold]; rw [t2, s2],
        by rw [mapFold]; rw [t3, s3], by rw [mapFold]; rw [t4, s4]⟩

theorem mapFold_framed : ∀ (n l : Nat) (a : MapArea) (pt : PageTable) (al : Nat),
    a.map_type = .Framed →
    (mapFold (List.range' l n) a pt al).2.2 = al + n ∧
    (∀ j, (mapFold (List.range' l n) a pt al).2.1.translate j =
        if l ≤ j ∧ j < l + n then some ⟨al + (j - l), a.map_perm⟩
        else pt.translate j) ∧
    (∀ j, alLookup (mapFold (List.range' l n) a pt al).1.data_frames j =
        if l ≤ j ∧ j < l + n then some (al + (j - l))
        else alLookup a.data_frames j) := by
  intro n
  induction n with
  | zero =>
      intro l a pt al _
      refine ⟨rfl, fun j => ?_, fun j => ?_⟩
      · rw [if_neg (by omega : ¬ (l ≤ j ∧ j < l + 0))]
        exact rfl
      · rw [if_neg (by omega : ¬ (l ≤ j ∧ j < l + 0))]
        exact rfl
  | succ n ih =>
      intro l a pt al hf
      rw [List.range'_succ]
      simp only [mapFold, map_one, hf]
      obtain ⟨h1, h2, h3⟩ := ih (l + 1)
        { vpn_range := a.vpn_range, data_frames := alInsert a.data_frames l al,
          map_type := .Framed, map_perm := a.map_perm }
        (pt.map l al a.map_perm) (al + 1) rfl
      refine ⟨by rw [h1]; omega, fun j => ?_, fun j => ?_⟩
      · rw [h2 j]
        by_cases hin : l + 1 ≤ j ∧ j < l + 1 + n
        · rw [if_pos hin, if_pos (by omega : l ≤ j ∧ j < l + (n + 1))]
          have heq : al + 1 + (j - (l + 1)) = al + (j - l) := by omega
          rw [heq]
        · rw [if_neg hin, translate_map]
          by_cases hj : j = l
          · subst hj
            rw [if_pos rfl, if_pos (by omega : j ≤ j ∧ j < j + (n + 1))]
            simp
          · rw [if_neg hj, if_neg (by omega : ¬ (l ≤ j ∧ j < l + (n + 1)))]
      · rw [h3 j]
        by_cases hin : l + 1 ≤ j ∧ j < l + 1 + n
        · rw [if_pos hin, if_pos (by omega : l ≤ j ∧ j < l + (n + 1))]
          have heq : al + 1 + (j - (l + 1)) = al + (j - l) := by omega
          rw [heq]
        · rw [if_neg hin]
          show alLookup (alInsert a.data_frames l al) j = _
          rw [alLookup_insert]
          by_cases hj : j = l
          · subst hj
            rw [if_pos rfl, if_pos (by omega : j ≤ j ∧ j < j + (n + 1))]
            simp
          · rw [if_neg hj, if_neg (by omega : ¬ (l ≤ j ∧ j < l + (n + 1)))]

theorem mapFold_ident : ∀ (n l : Nat) (a : MapArea) (pt : PageTable) (al : Nat),
    a.map_type ≠ .Framed →
    (mapFold (List.range' l n) a pt al).2.2 = al ∧
    (mapFold (List.range' l n) a pt al).1.data_frames = a.data_frames ∧
    (∀ j, (mapFold (List.range' l n) a pt al).2.1.translate j =
        if l ≤ j ∧ j < l + n then some ⟨j, a.map_perm⟩
        else pt.translate j) := by
  intro n
  induction n with
  | zero =>
      intro l a pt al _
      refine ⟨rfl, rfl, fun j => ?_⟩
      rw [if_neg (by omega : ¬ (l ≤ j ∧ j < l + 0))]
      exact rfl
  | succ n ih =>
      intro l a pt al hnf
      rw [List.range'_succ]
      have hone : map_one a pt al l = (a, pt.map l l a.map_perm, al) := by
        cases h : a.map_type with
        | Identical => simp [map_one, h]
        | Mmio => simp [map_one, h]
        | Framed => exact absurd h hnf
      simp only [mapFold, hone]
      obtain ⟨h1, h2, h3⟩ := ih (l + 1) a (pt.map l l a.map_perm) al hnf
      refine ⟨h1, h2, fun j => ?_⟩
      rw [h3 j]
      by_cases hin : l + 1 ≤ j ∧ j < l + 1 + n
      · rw [if_pos hin, if_pos (by omega : l ≤ j ∧ j < l + (n + 1))]
      · rw [if_neg hin, translate_map]
        by_cases hj : j = l
        · subst hj
          rw [if_pos rfl, if_pos (by omega : j ≤ j ∧ j < j + (n + 1))]
        · rw [if_neg hj, if_neg (by omega : ¬ (l ≤ j ∧ j < l + (n + 1)))]

theorem unmap_one_pt (a : MapArea) (pt : PageTable) (v : Nat) :
    (unmap_one a pt v).2 = pt.unmap v := by
  cases h : a.map_type <;> simp [unmap_one, h]

theorem unmapFold_translate : ∀ (vs : List Nat) (a : MapArea) (pt : PageTable) (j : Nat),
    (unmapFold vs a pt).2.translate j = if j ∈ vs then none else pt.translate j := by
  intro vs
  induction vs with
  | nil => intro a pt j; simp [unmapFold]
  | cons v rest ih =>
      intro a pt j
      simp only [unmapFold, unmap_one_pt]
      rw [ih, translate_unmap]
      by_cases hj : j = v
      · subst hj
        simp [List.mem_cons]
      · simp [List.mem_cons, hj]

theorem area_unmap_translate (a : MapArea) (pt : PageTable) (j : Nat) :
    (a.unmap pt).2.translate j = if inArea a j then none else pt.translate j := by
  rw [MapArea.unmap, unmapFold_translate]
  by_cases h : inArea a j
  · rw [if_pos ((mem_vpnList a.vpn_range j).mpr h), if_pos h]
  · rw [if_neg (fun hm => h ((mem_vpnList a.vpn_range j).mp hm)), if_neg h]

theorem vpnList_length (rng : VPNRange) : (vpnList rng).length = rng.r - rng.l := by
  simp [vpnList]

/-- Page-table effect of `MapArea::map` for a fresh Framed area. -/
theorem area_map_framed (a : MapArea) (pt : PageTable) (al : Nat)
    (hf : a.map_type = .Framed) :
    (a.map pt al).2.2 = al + (a.vpn_range.r - a.vpn_range.l) ∧
    (∀ j, (a.map pt al).2.1.translate j =
        if inArea a j then some ⟨al + (j - a.vpn_range.l), a.map_perm⟩
        else pt.translate j) ∧
    (∀ j, alLookup (a.map pt al).1.data_frames j =
        if inArea a j then some (al + (j - a.vpn_range.l))
        else alLookup a.data_frames j) := by
  obtain ⟨h1, h2, h3⟩ :=
    mapFold_framed (a.vpn_range.r - a.vpn_range.l) a.vpn_range.l a pt al hf
  rw [MapArea.map, vpnList]
  refine ⟨h1, fun j => ?_, fun j => ?_⟩
  · rw [h2 j]
    by_cases hin : inArea a j
    · rw [if_pos (by unfold inArea at hin; omega), if_pos hin]
    · rw [if_neg (by unfold inArea at hin; omega), if_neg hin]
  · rw [h3 j]
    by_cases hin : inArea a j
    · rw [if_pos (by unfold inArea at hin; omega), if_pos hin]
    · rw [if_neg (by unfold inArea at hin; omega), if_neg hin]

/-- Page-table effect of `MapArea::map` for an Identical or Mmio area. -/
theorem area_map_ident (a : MapArea) (pt : PageTable) (al : Nat)
    (hnf : a.map_type ≠ .Framed) :
    (a.map pt al).2.2 = al ∧
    (a.map pt al).1.data_frames = a.data_frames ∧
    (∀ j, (a.map pt al).2.1.translate j =
        if inArea a j then some ⟨j, a.map_perm⟩ else pt.translate j) := by
  obtain ⟨h1, h2, h3⟩ :=
    mapFold_ident (a.vpn_range.r - a.vpn_range.l) a.vpn_range.l a pt al hnf
  rw [MapArea.map, vpnList]
  refine ⟨h1, h2, fun j => ?_⟩
  rw [h3 j]
  by_cases hin : inArea a j
  · rw [if_pos (by unfold inArea at hin; omega), if_pos hin]
  · rw [if_neg (by unfold inArea at hin; omega), if_neg hin]

/-! ## mmap characterization (claims C1, C3, C9) -/

theorem one_shl_30 : (1 : Nat) <<< 30 = 2 ^ 30 := by
  norm_num [Nat.shiftLeft_eq]

theorem is_mapped_area_iff (m : MemorySet) (s e : Nat) :
    m.is_mapped_area s e = true ↔
      ∃ a ∈ m.areas, a.vpn_range.is_overlapped ⟨s, e⟩ = true := by
  simp [MemorySet.is_mapped_area, List.any_eq_true]

/-- The rejection condition of `mmap` as the specification words it:
reserved `port` bits, empty permissions, oversized length, unaligned start,
or an overlap with an existing area. -/
def mmapRejects (m : MemorySet) (start len port : Nat) : Prop :=
  (∃ i, 3 ≤ i ∧ port.testBit i = true) ∨
  port &&& 0b111 = 0 ∨
  2 ^ 30 < len ∨
  ¬ (PAGE_SIZE ∣ start) ∨
  ∃ a ∈ m.areas,
    a.vpn_range.is_overlapped ⟨floorVpn start, ceilVpn (start + len)⟩ = true

theorem mmap_error_iff (m : MemorySet) (al start len port : Nat)
    (hport : port < 2 ^ 64) :
    (m.mmap al start len port).1 = .error (-1) ↔ mmapRejects m start len port := by
  rw [MemorySet.mmap]
  split_ifs with h1 h2 h3
  · refine iff_of_true rfl ?_
    rcases h1 with ha | hb | hc
    · exact Or.inl ((port_high_bits port hport).mp ha)
    · exact Or.inr (Or.inl hb)
    · exact Or.inr (Or.inr (Or.inl (by rw [← one_shl_30]; exact hc)))
  · refine iff_of_true rfl ?_
    refine Or.inr (Or.inr (Or.inr (Or.inl ?_)))
    rw [Nat.dvd_iff_mod_eq_zero]
    exact h2
  · refine iff_of_true rfl ?_
    rw [floorVpn_mul] at h3
    exact Or.inr (Or.inr (Or.inr (Or.inr ((is_mapped_area_iff m _ _).mp h3))))
  · push_neg at h1
    obtain ⟨ha, hb, hc⟩ := h1
    refine iff_of_false (by simp) ?_
    rintro (h | h | h | h | h)
    · exact (port_high_bits port hport).mpr h ha
    · exact hb h
    · rw [one_shl_30] at hc; omega
    · rw [Nat.dvd_iff_mod_eq_zero] at h; exact h (not_not.mp h2)
    · rw [floorVpn_mul] at h3
      exact h3 ((is_mapped_area_iff m _ _).mpr h)

theorem mmap_ok_char (m : MemorySet) (al start len port : Nat)
    (h1 : ¬ (port &&& usizeNot 7 ≠ 0 ∨ port &&& 7 = 0 ∨ len > 1 <<< 30))
    (h2 : start % PAGE_SIZE = 0)
    (h3 : m.is_mapped_area (floorVpn start) (ceilVpn (start + len)) = false) :
    m.mmap al start len port =
      (.ok (usizeToIsize (ceilVpn (start + len) * PAGE_SIZE - start)),
       m.push (MapArea.new start (ceilVpn (start + len) * PAGE_SIZE) .Framed
         ((port <<< 1) ||| 0b10000)) al) := by
  rw [MemorySet.mmap, if_neg h1, if_neg (by simp [h2]),
    if_neg (by rw [floorVpn_mul]; simp [h3])]
  rfl

theorem ceilVpn_aligned (x : Nat) (h : x % PAGE_SIZE = 0) :
    ceilVpn x = x / PAGE_SIZE := by
  simp only [ceilVpn, PAGE_SIZE] at *
  omega

/-- Claim C1: `mmap(start, len, port)` returns `Err(-1)` exactly when `port`
has a bit above bit 2 set, or `port & 0b111 == 0`, or `len > 2^30`, or
`start` is unaligned, or `[floor start, ceil (start+len))` overlaps an
existing area; otherwise it appends exactly one Framed area covering that
range with permission bits `(port << 1) | U` and returns the byte size
`ceil(start+len) - start` as a non-negative `isize`. -/
theorem claim_C1_mmap_spec (m : MemorySet) (al start len port : Nat)
    (hport : port < 2 ^ 64) :
    ((m.mmap al start len port).1 = .error (-1) ↔ mmapRejects m start len port) ∧
    (¬ mmapRejects m start len port →
      (m.mmap al start len port).1 =
        .ok ((ceilVpn (start + len) * PAGE_SIZE - start : Nat) : Int) ∧
      (0 : Int) ≤ ((ceilVpn (start + len) * PAGE_SIZE - start : Nat) : Int) ∧
      ∃ a, (m.mmap al start len port).2.1.areas = m.areas ++ [a] ∧
        a.vpn_range = ⟨floorVpn start, ceilVpn (start + len)⟩ ∧
        a.map_type = .Framed ∧
        a.map_perm = (port <<< 1) ||| MapPermission.U) := by
  refine ⟨mmap_error_iff m al start len port hport, fun hrej => ?_⟩
  have h1 : ¬ (port &&& usizeNot 7 ≠ 0 ∨ port &&& 7 = 0 ∨ len > 1 <<< 30) := by
    rintro (ha | hb | hc)
    · exact hrej (Or.inl ((port_high_bits port hport).mp ha))
    · exact hrej (Or.inr (Or.inl hb))
    · exact hrej (Or.inr (Or.inr (Or.inl (by rw [← one_shl_30]; exact hc))))
  have h2 : start % PAGE_SIZE = 0 := by
    by_contra h
    exact hrej (Or.inr (Or.inr (Or.inr (Or.inl (by rw [Nat.dvd_iff_mod_eq_zero]; exact h)))))
  have h3 : m.is_mapped_area (floorVpn start) (ceilVpn (start + len)) = false := by
    rcases hb : m.is_mapped_area (floorVpn start) (ceilVpn (start + len)) with _ | _
    · rfl
    · exact absurd (Or.inr (Or.inr (Or.inr (Or.inr ((is_mapped_area_iff m _ _).mp hb))))) hrej
  have hchar := mmap_ok_char m al start len port h1 h2 h3
  have hlen : len ≤ 2 ^ 30 := by
    by_contra h
    exact hrej (Or.inr (Or.inr (Or.inl (by omega))))
  have hsize : ceilVpn (start + len) * PAGE_SIZE - start < 2 ^ 63 := by
    have := ceilVpn_le (start + len)
    simp only [PAGE_SIZE] at *
    omega
  constructor
  · rw [hchar]
    simp only [usizeToIsize, if_pos hsize]
  constructor
  · exact Int.ofNat_nonneg _
  · rw [hchar]
    simp only [MemorySet.push, MemorySet.insert_framed_area]
    refine ⟨((MapArea.new start (ceilVpn (start + len) * PAGE_SIZE) .Framed
        ((port <<< 1) ||| 0b10000)).map m.page_table al).1, rfl, ?_, ?_, ?_⟩
    · obtain ⟨s1, _, _, _⟩ := mapFold_shape _ _ m.page_table al
      rw [MapArea.map] at *
      rw [s1]
      show VPNRange.mk (floorVpn start) (ceilVpn (ceilVpn (start + len) * PAGE_SIZE)) = _
      rw [ceilVpn_mul]
    · obtain ⟨_, s2, _, _⟩ := mapFold_shape _ _ m.page_table al
      rw [MapArea.map] at *
      rw [s2]
      rfl
    · obtain ⟨_, _, s3, _⟩ := mapFold_shape _ _ m.page_table al
      rw [MapArea.map] at *
      rw [s3]
      rfl

/-- Witness for C1 at `mmap(0x1000, 0x2000, 0b011)` on a bare space. -/
theorem claim_C1_mmap_spec_witness :
    (3 : Nat) < 2 ^ 64 ∧
    ((MemorySet.new_bare 0).1.mmap 1 0x1000 0x2000 3).1 = .ok 0x2000 := by
  refine ⟨by norm_num, ?_⟩
  have hport : (3 : Nat) < 2 ^ 64 := by norm_num
  have heval : ((MemorySet.new_bare 0).1.mmap 1 0x1000 0x2000 3).1 = .ok 0x2000 := by
    have hne : ¬ mmapRejects (MemorySet.new_bare 0).1 0x1000 0x2000 3 := by
      intro hr
      have h := (claim_C1_mmap_spec (MemorySet.new_bare 0).1 1 0x1000 0x2000 3 hport).1.mpr hr
      have hok : ((MemorySet.new_bare 0).1.mmap 1 0x1000 0x2000 3).1 = .ok 8192 := by rfl
      rw [hok] at h
      exact absurd h (by simp)
    have h := ((claim_C1_mmap_spec (MemorySet.new_bare 0).1 1 0x1000 0x2000 3 hport).2 hne).1
    rw [h]
    rfl
  exact heval

/-! ## Claims C9 (area-range normalization), C3 (error paths), C10, C6 -/

/-- Claim C9 counterexample: `mmap(0x1000, 0, 1)` on a bare space succeeds
with `Ok(0)` and leaves the empty-range area `[1, 1)` in the area list,
contradicting the claim that no operation ever leaves an empty-range area. -/
theorem claim_C9_counterexample :
    ((MemorySet.new_bare 0).1.mmap 1 0x1000 0 1).1 = .ok 0 ∧
    ((MemorySet.new_bare 0).1.mmap 1 0x1000 0 1).2.1.areas.map
        (fun a => (a.vpn_range.l, a.vpn_range.r)) = [(1, 1)] := by
  exact ⟨rfl, rfl⟩

/-- From a successful `mmap` every validation must have passed. -/
theorem mmap_ok_inv (m : MemorySet) (al start len port : Nat)
    (hok : ∃ v, (m.mmap al start len port).1 = .ok v) :
    ¬ (port &&& usizeNot 7 ≠ 0 ∨ port &&& 7 = 0 ∨ len > 1 <<< 30) ∧
    start % PAGE_SIZE = 0 ∧
    m.is_mapped_area (floorVpn start) (ceilVpn (start + len)) = false := by
  obtain ⟨v, hv⟩ := hok
  by_contra hcon
  rw [MemorySet.mmap] at hv
  rcases Classical.em (port &&& usizeNot 7 ≠ 0 ∨ port &&& 7 = 0 ∨ len > 1 <<< 30)
    with h1 | h1
  · rw [if_pos h1] at hv; exact absurd hv (by simp)
  · rw [if_neg h1] at hv
    rcases Classical.em (start % PAGE_SIZE ≠ 0) with h2 | h2
    · rw [if_pos h2] at hv; exact absurd hv (by simp)
    · rw [if_neg h2] at hv
      rcases hb : m.is_mapped_area (floorVpn start)
          (floorVpn (ceilVpn (start + len) * PAGE_SIZE)) with _ | _
      · rw [floorVpn_mul] at hb
        exact hcon ⟨h1, not_not.mp h2, hb⟩
      · rw [if_pos hb] at hv; exact absurd hv (by simp)

/-- Claim C9 (amended): the area inserted by a successful `mmap` always has
the floor/ceil-normalized range `[floor start, ceil (start+len))`, which is
non-empty whenever `len > 0`; but `mmap` with `len = 0` on an aligned,
non-overlapping start inserts an empty-range area. -/
theorem claim_C9_mmap_range (m : MemorySet) (al start len port : Nat)
    (hok : ∃ v, (m.mmap al start len port).1 = .ok v) :
    ∃ a, (m.mmap al start len port).2.1.areas = m.areas ++ [a] ∧
      a.vpn_range = ⟨floorVpn start, ceilVpn (start + len)⟩ ∧
      (0 < len → a.vpn_range.l < a.vpn_range.r) ∧
      (len = 0 → a.vpn_range.l = a.vpn_range.r) := by
  obtain ⟨h1, h2, h3⟩ := mmap_ok_inv m al start len port hok
  have hchar := mmap_ok_char m al start len port h1 h2 h3
  rw [hchar]
  simp only [MemorySet.push, MemorySet.insert_framed_area]
  obtain ⟨s1, _, _, _⟩ := mapFold_shape
    (vpnList (MapArea.new start (ceilVpn (start + len) * PAGE_SIZE) .Framed
      ((port <<< 1) ||| 0b10000)).vpn_range)
    (MapArea.new start (ceilVpn (start + len) * PAGE_SIZE) .Framed
      ((port <<< 1) ||| 0b10000)) m.page_table al
  rw [← MapArea.map] at s1
  refine ⟨_, rfl, ?_, ?_, ?_⟩
  · rw [s1]
    show VPNRange.mk (floorVpn start) (ceilVpn (ceilVpn (start + len) * PAGE_SIZE)) = _
    rw [ceilVpn_mul]
  · intro hlen
    rw [s1]
    show floorVpn start < ceilVpn (ceilVpn (start + len) * PAGE_SIZE)
    rw [ceilVpn_mul]
    exact floorVpn_lt_ceilVpn_of_lt start (start + len) (by omega) h2
  · intro hlen
    subst hlen
    rw [s1]
    show floorVpn start = ceilVpn (ceilVpn (start + 0) * PAGE_SIZE)
    rw [ceilVpn_mul, ceilVpn_aligned _ (by simpa using h2)]
    rfl

/-- Witness for C9 at `mmap(0x1000, 0x1000, 1)` on a bare space. -/
theorem claim_C9_mmap_range_witness :
    (∃ v, ((MemorySet.new_bare 0).1.mmap 1 0x1000 0x1000 1).1 = .ok v) ∧
    ∃ a, ((MemorySet.new_bare 0).1.mmap 1 0x1000 0x1000 1).2.1.areas =
        (MemorySet.new_bare 0).1.areas ++ [a] ∧
      a.vpn_range = ⟨floorVpn 0x1000, ceilVpn (0x1000 + 0x1000)⟩ ∧
      (0 < 0x1000 → a.vpn_range.l < a.vpn_range.r) ∧
      (0x1000 = 0 → a.vpn_range.l = a.vpn_range.r) :=
  ⟨⟨0x1000, rfl⟩, claim_C9_mmap_range (MemorySet.new_bare 0).1 1 0x1000 0x1000 1 ⟨0x1000, rfl⟩⟩

/-- Claim C3: whenever `mmap` or `munmap` returns `Err(-1)`, the `MemorySet`
(and the allocator) are returned exactly as they were: no partial mutation
is observable on any error path. -/
theorem claim_C3_error_paths (m : MemorySet) (al start len port : Nat) :
    ((m.mmap al start len port).1 = .error (-1) →
      (m.mmap al start len port).2.1 = m ∧ (m.mmap al start len port).2.2 = al) ∧
    ((m.munmap al start len).1 = .error (-1) →
      (m.munmap al start len).2.1 = m ∧ (m.munmap al start len).2.2 = al) := by
  constructor
  · rw [MemorySet.mmap]
    split_ifs <;> simp
  · rw [MemorySet.munmap]
    split_ifs with h1
    · simp
    · cases hlc : loopCheck start (munmapCovered m (floorVpn start) (ceilVpn (start + len))) with
      | none => simp
      | some cur =>
          dsimp only
          split_ifs with h2
          · simp
          · simp

/-- Witness for C3 at an unaligned `mmap`/`munmap` start. -/
theorem claim_C3_error_paths_witness :
    (((MemorySet.new_bare 0).1.mmap 1 0x1001 0x1000 1).1 = .error (-1) →
      ((MemorySet.new_bare 0).1.mmap 1 0x1001 0x1000 1).2.1 = (MemorySet.new_bare 0).1 ∧
      ((MemorySet.new_bare 0).1.mmap 1 0x1001 0x1000 1).2.2 = 1) ∧
    ((MemorySet.new_bare 0).1.mmap 1 0x1001 0x1000 1).2.1 = (MemorySet.new_bare 0).1 := by
  refine ⟨(claim_C3_error_paths (MemorySet.new_bare 0).1 1 0x1001 0x1000 1).1, ?_⟩
  exact ((claim_C3_error_paths (MemorySet.new_bare 0).1 1 0x1001 0x1000 1).1 rfl).1

/-- Claim C10 counterexample: `mmio_map(0x1000, 0, 0)` has `end < start` yet
returns `Err(-1)` without underflowing, because the short-circuited port
checks reject before the subtraction is evaluated. -/
theorem claim_C10_counterexample :
    (MemorySet.new_bare 0).1.mmio_map 1 0x1000 0 0 =
      some (.error (-1), (MemorySet.new_bare 0).1, 1) := rfl

/-- Claim C10 (amended): `mmio_map` is total when `start ≤ end`; when the
port passes the permission checks and `end < start`, the `end - start` in
the first validation expression underflows (panic) — no error branch covers
a reversed range — but an invalid port short-circuits to `Err(-1)` first. -/
theorem claim_C10_mmio_map_underflow (m : MemorySet) (al start endA port : Nat) :
    (start ≤ endA → (m.mmio_map al start endA port).isSome = true) ∧
    (¬ (port &&& usizeNot 7 ≠ 0 ∨ port &&& 7 = 0) → endA < start →
      m.mmio_map al start endA port = none) := by
  constructor
  · intro hle
    rw [MemorySet.mmio_map]
    split_ifs with h1 h2 h3 h4 h5
    · rfl
    · exact absurd h2 (Nat.not_lt.mpr hle)
    · rfl
    · rfl
    · rfl
    · rfl
  · intro hport hlt
    rw [MemorySet.mmio_map, if_neg hport, if_pos hlt]

/-- Witness for C10. -/
theorem claim_C10_mmio_map_underflow_witness :
    ((MemorySet.new_bare 0).1.mmio_map 1 0x1000 0x2000 1).isSome = true ∧
    (MemorySet.new_bare 0).1.mmio_map 1 0x1000 0x0fff 1 = none := by
  constructor
  · exact (claim_C10_mmio_map_underflow (MemorySet.new_bare 0).1 1 0x1000 0x2000 1).1
      (by norm_num)
  · exact (claim_C10_mmio_map_underflow (MemorySet.new_bare 0).1 1 0x1000 0x0fff 1).2
      (by decide) (by norm_num)

theorem recycle_released_mem : ∀ (l : List MapArea) (p : Nat),
    p ∈ l.foldr
        (fun a acc =>
          match a.map_type with
          | .Framed => a.data_frames.map (fun e => e.2) ++ acc
          | _ => acc)
        [] ↔
      ∃ a ∈ l, a.map_type = .Framed ∧ ∃ v, (v, p) ∈ a.data_frames := by
  intro l
  induction l with
  | nil => simp
  | cons a rest ih =>
      intro p
      rw [List.foldr_cons]
      cases h : a.map_type with
      | Framed =>
          simp only [List.mem_append, List.mem_map, ih]
          constructor
          · rintro (⟨e, he, hep⟩ | ⟨b, hb, hbf, v, hv⟩)
            · refine ⟨a, List.mem_cons_self a rest, h, e.1, ?_⟩
              rw [← hep]
              exact he
            · exact ⟨b, List.mem_cons_of_mem a hb, hbf, v, hv⟩
          · rintro ⟨b, hb, hbf, v, hv⟩
            rcases List.mem_cons.mp hb with rfl | hb'
            · exact Or.inl ⟨(v, p), hv, rfl⟩
            · exact Or.inr ⟨b, hb', hbf, v, hv⟩
      | Identical =>
          simp only [ih]
          constructor
          · rintro ⟨b, hb, hbf, v, hv⟩
            exact ⟨b, List.mem_cons_of_mem a hb, hbf, v, hv⟩
          · rintro ⟨b, hb, hbf, v, hv⟩
            rcases List.mem_cons.mp hb with rfl | hb'
            · rw [h] at hbf; exact absurd hbf (by simp)
            · exact ⟨b, hb', hbf, v, hv⟩
      | Mmio =>
          simp only [ih]
          constructor
          · rintro ⟨b, hb, hbf, v, hv⟩
            exact ⟨b, List.mem_cons_of_mem a hb, hbf, v, hv⟩
          · rintro ⟨b, hb, hbf, v, hv⟩
            rcases List.mem_cons.mp hb with rfl | hb'
            · rw [h] at hbf; exact absurd hbf (by simp)
            · exact ⟨b, hb', hbf, v, hv⟩

/-- Claim C6: `recycle_data_pages` empties the area list and releases
exactly the frames owned by the Framed areas, while the page table is kept
untouched, so `token()` is unchanged. -/
theorem claim_C6_recycle (m : MemorySet) :
    (m.recycle_data_pages).1.areas = [] ∧
    (m.recycle_data_pages).1.page_table = m.page_table ∧
    (m.recycle_data_pages).1.token = m.token ∧
    (∀ p, p ∈ (m.recycle_data_pages).2 ↔
      ∃ a ∈ m.areas, a.map_type = .Framed ∧ ∃ v, (v, p) ∈ a.data_frames) := by
  refine ⟨rfl, rfl, rfl, fun p => ?_⟩
  exact recycle_released_mem m.areas p

/-! ## Sorting and index-enumeration machinery for `munmap` -/

theorem insertLe_perm {α : Type} (le : α → α → Bool) (x : α) :
    ∀ l : List α, (insertLe le x l).Perm (x :: l) := by
  intro l
  induction l with
  | nil => exact List.Perm.refl _
  | cons y ys ih =>
      rw [insertLe]
      by_cases h : le x y
      · rw [if_pos h]
      · rw [if_neg h]
        exact ((ih.cons y).trans (List.Perm.swap x y ys))

theorem sortLe_perm {α : Type} (le : α → α → Bool) :
    ∀ l : List α, (sortLe le l).Perm l := by
  intro l
  induction l with
  | nil => exact List.Perm.refl _
  | cons x xs ih =>
      rw [sortLe]
      exact (insertLe_perm le x (sortLe le xs)).trans (ih.cons x)

theorem insertLe_sorted {α : Type} (le : α → α → Bool)
    (htot : ∀ a b, le a b = true ∨ le b a = true)
    (htrans : ∀ a b c, le a b = true → le b c = true → le a c = true)
    (x : α) :
    ∀ l : List α, List.Pairwise (fun a b => le a b = true) l →
      List.Pairwise (fun a b => le a b = true) (insertLe le x l) := by
  intro l
  induction l with
  | nil => intro _; exact List.pairwise_singleton _ x
  | cons y ys ih =>
      intro hp
      rw [List.pairwise_cons] at hp
      obtain ⟨hy, hys⟩ := hp
      rw [insertLe]
      by_cases h : le x y
      · rw [if_pos h]
        refine List.Pairwise.cons ?_ (List.Pairwise.cons hy hys)
        intro z hz
        rcases List.mem_cons.mp hz with rfl | hz'
        · exact h
        · exact htrans x y z h (hy z hz')
      · rw [if_neg h]
        refine List.Pairwise.cons ?_ (ih hys)
        intro z hz
        have hz' := (insertLe_perm le x ys).mem_iff.mp hz
        rcases List.mem_cons.mp hz' with hzx | hz''
        · rcases htot x y with hxy | hyx
          · exact absurd hxy h
          · rw [hzx]
            exact hyx
        · exact hy z hz''

theorem sortLe_sorted {α : Type} (le : α → α → Bool)
    (htot : ∀ a b, le a b = true ∨ le b a = true)
    (htrans : ∀ a b c, le a b = true → le b c = true → le a c = true) :
    ∀ l : List α, List.Pairwise (fun a b => le a b = true) (sortLe le l) := by
  intro l
  induction l with
  | nil => exact List.Pairwise.nil
  | cons x xs ih => exact insertLe_sorted le htot htrans x (sortLe le xs) ih

theorem insertLe_map {α β : Type} (f : α → β) (leA : α → α → Bool)
    (leB : β → β → Bool) (h : ∀ p q, leA p q = leB (f p) (f q)) (x : α) :
    ∀ l : List α, (insertLe leA x l).map f = insertLe leB (f x) (l.map f) := by
  intro l
  induction l with
  | nil => rfl
  | cons y ys ih =>
      rw [insertLe, List.map_cons, insertLe]
      by_cases hxy : leA x y
      · rw [if_pos hxy, if_pos (by rw [← h]; exact hxy)]
        rfl
      · rw [if_neg hxy, if_neg (by rw [← h]; exact hxy), List.map_cons, ih]

theorem sortLe_map {α β : Type} (f : α → β) (leA : α → α → Bool)
    (leB : β → β → Bool) (h : ∀ p q, leA p q = leB (f p) (f q)) :
    ∀ l : List α, (sortLe leA l).map f = sortLe leB (l.map f) := by
  intro l
  induction l with
  | nil => rfl
  | cons x xs ih =>
      rw [sortLe, List.map_cons, sortLe, ← ih]
      exact insertLe_map f leA leB h x (sortLe leA xs)

theorem enumIdx_fst_ge {α : Type} :
    ∀ (xs : List α) (n : Nat) (p : Nat × α), p ∈ enumIdx n xs → n ≤ p.1 := by
  intro xs
  induction xs with
  | nil => intro n p hp; simp [enumIdx] at hp
  | cons x xs ih =>
      intro n p hp
      rw [enumIdx, List.mem_cons] at hp
      rcases hp with rfl | hp'
      · exact Nat.le_refl n
      · exact Nat.le_of_succ_le (ih (n + 1) p hp')

theorem enumIdx_pairwise {α : Type} :
    ∀ (xs : List α) (n : Nat),
      List.Pairwise (fun p q => p.1 < q.1) (enumIdx n xs) := by
  intro xs
  induction xs with
  | nil => intro n; exact List.Pairwise.nil
  | cons x xs ih =>
      intro n
      rw [enumIdx]
      refine List.Pairwise.cons ?_ (ih (n + 1))
      intro q hq
      exact Nat.lt_of_lt_of_le (Nat.lt_succ_self n) (enumIdx_fst_ge xs (n + 1) q hq)

theorem enumIdx_snd_mem {α : Type} :
    ∀ (xs : List α) (n : Nat) (p : Nat × α), p ∈ enumIdx n xs → p.2 ∈ xs := by
  intro xs
  induction xs with
  | nil => intro n p hp; simp [enumIdx] at hp
  | cons x xs ih =>
      intro n p hp
      rw [enumIdx, List.mem_cons] at hp
      rcases hp with rfl | hp'
      · exact List.mem_cons_self x xs
      · exact List.mem_cons_of_mem x (ih (n + 1) p hp')

theorem enumIdx_mem_of_mem {α : Type} :
    ∀ (xs : List α) (n : Nat) (a : α), a ∈ xs → ∃ i, (i, a) ∈ enumIdx n xs := by
  intro xs
  induction xs with
  | nil => intro n a ha; simp at ha
  | cons x xs ih =>
      intro n a ha
      rcases List.mem_cons.mp ha with rfl | ha'
      · exact ⟨n, by rw [enumIdx]; exact List.mem_cons_self _ _⟩
      · obtain ⟨i, hi⟩ := ih (n + 1) a ha'
        exact ⟨i, by rw [enumIdx]; exact List.mem_cons_of_mem _ hi⟩

theorem enumIdx_filter_map_snd {α : Type} (pred : α → Bool) :
    ∀ (xs : List α) (n : Nat),
      ((enumIdx n xs).filter (fun p => pred p.2)).map (fun p => p.2) =
        xs.filter pred := by
  intro xs
  induction xs with
  | nil => intro n; rfl
  | cons x xs ih =>
      intro n
      rw [enumIdx, List.filter_cons, List.filter_cons]
      by_cases hx : pred x <;> simp [hx, ih (n + 1)]

/-! Removing by descending indices is list filtering. -/

def dropIdxsFrom {α : Type} (S : List Nat) : Nat → List α → List α
  | _, [] => []
  | n, x :: xs =>
      if n ∈ S then dropIdxsFrom S (n + 1) xs
      else x :: dropIdxsFrom S (n + 1) xs

theorem dropIdxsFrom_congr_ge {α : Type} (S S' : List Nat) :
    ∀ (xs : List α) (n : Nat), (∀ j, n ≤ j → (j ∈ S ↔ j ∈ S')) →
      dropIdxsFrom S n xs = dropIdxsFrom S' n xs := by
  intro xs
  induction xs with
  | nil => intro n _; rfl
  | cons x xs ih =>
      intro n hmem
      rw [dropIdxsFrom, dropIdxsFrom]
      have hrec := ih (n + 1) (fun j hj => hmem j (by omega))
      by_cases hn : n ∈ S
      · rw [if_pos hn, if_pos ((hmem n (Nat.le_refl n)).mp hn), hrec]
      · rw [if_neg hn, if_neg (fun h => hn ((hmem n (Nat.le_refl n)).mpr h)), hrec]

theorem dropIdxsFrom_none {α : Type} (S : List Nat) :
    ∀ (xs : List α) (n : Nat), (∀ j ∈ S, j < n) → dropIdxsFrom S n xs = xs := by
  intro xs
  induction xs with
  | nil => intro n _; rfl
  | cons x xs ih =>
      intro n hS
      rw [dropIdxsFrom, if_neg (fun h => Nat.lt_irrefl n (hS n h))]
      rw [ih (n + 1) (fun j hj => Nat.lt_succ_of_lt (hS j hj))]

theorem dropIdxsFrom_erase {α : Type} :
    ∀ (xs : List α) (n i : Nat) (S : List Nat),
      (∀ j ∈ S, j < i) → n ≤ i →
      dropIdxsFrom S n (xs.eraseIdx (i - n)) = dropIdxsFrom (i :: S) n xs := by
  intro xs
  induction xs with
  | nil => intro n i S _ _; rfl
  | cons x xs ih =>
      intro n i S hS hni
      by_cases hn : n = i
      · subst hn
        rw [show n - n = 0 from by omega, List.eraseIdx_cons_zero]
        rw [dropIdxsFrom_none S xs n (fun j hj => hS j hj)]
        rw [dropIdxsFrom, if_pos (List.mem_cons_self n S)]
        rw [dropIdxsFrom_none (n :: S) xs (n + 1) ?_]
        intro j hj
        rcases List.mem_cons.mp hj with rfl | hj'
        · omega
        · exact Nat.lt_succ_of_lt (hS j hj')
      · have hlt : n < i := by omega
        rw [show i - n = (i - (n + 1)) + 1 from by omega, List.eraseIdx_cons_succ]
        rw [dropIdxsFrom, dropIdxsFrom]
        have hcond : (n ∈ i :: S) ↔ (n ∈ S) := by
          rw [List.mem_cons]
          constructor
          · rintro (rfl | h)
            · omega
            · exact h
          · exact Or.inr
        by_cases hn' : n ∈ S
        · rw [if_pos hn', if_pos (hcond.mpr hn'), ih (n + 1) i S hS (by omega)]
        · rw [if_neg hn', if_neg (fun h => hn' (hcond.mp h)),
            ih (n + 1) i S hS (by omega)]

theorem foldl_eraseIdx_desc {α : Type} :
    ∀ (L : List (Nat × MapArea)) (xs : List α),
      List.Pairwise (fun p q => q.1 < p.1) L →
      L.foldl (fun acc q => acc.eraseIdx q.1) xs =
        dropIdxsFrom (L.map (fun p => p.1)) 0 xs := by
  intro L
  induction L with
  | nil =>
      intro xs _
      rw [List.foldl_nil, List.map_nil,
        dropIdxsFrom_none [] xs 0 (fun j hj => by simp at hj)]
  | cons p rest ih =>
      intro xs hp
      rw [List.pairwise_cons] at hp
      obtain ⟨hhead, htail⟩ := hp
      rw [List.foldl_cons, ih (xs.eraseIdx p.1) htail, List.map_cons]
      have := dropIdxsFrom_erase (α := α) xs 0 p.1 (rest.map (fun p => p.1))
        (fun j hj => by
          obtain ⟨q, hq, hqj⟩ := List.mem_map.mp hj
          rw [← hqj]
          exact hhead q hq)
        (Nat.zero_le _)
      rw [show p.1 - 0 = p.1 from rfl] at this
      exact this

theorem dropIdxsFrom_enum_filter {α : Type} (pred : α → Bool) :
    ∀ (xs : List α) (n : Nat),
      dropIdxsFrom (((enumIdx n xs).filter (fun p => pred p.2)).map (fun p => p.1))
          n xs =
        xs.filter (fun x => ! pred x) := by
  intro xs
  induction xs with
  | nil => intro n; rfl
  | cons x xs ih =>
      intro n
      have hnotmem :
          n ∉ ((enumIdx (n + 1) xs).filter (fun p => pred p.2)).map (fun p => p.1) := by
        intro hmem
        obtain ⟨q, hq, hqn⟩ := List.mem_map.mp hmem
        have := enumIdx_fst_ge xs (n + 1) q (List.mem_filter.mp hq).1
        omega
      rw [enumIdx, List.filter_cons, List.filter_cons]
      by_cases hx : pred x
      · rw [if_pos (by simpa using hx), if_neg (by simp [hx]), List.map_cons]
        rw [dropIdxsFrom, if_pos (List.mem_cons_self _ _)]
        rw [dropIdxsFrom_congr_ge
          (n :: ((enumIdx (n + 1) xs).filter (fun p => pred p.2)).map (fun p => p.1))
          (((enumIdx (n + 1) xs).filter (fun p => pred p.2)).map (fun p => p.1))
          xs (n + 1)
          (fun j hj => by
            rw [List.mem_cons]
            constructor
            · rintro (rfl | h)
              · omega
              · exact h
            · exact Or.inr)]
        exact ih (n + 1)
      · rw [if_neg (by simpa using hx), if_pos (by simp [hx])]
        rw [dropIdxsFrom, if_neg hnotmem, ih (n + 1)]

/-! ## munmap: tiling characterization (claim C2) -/

/-- The overlapping areas of a request, sorted ascending by start VPN — the
claim-side reading of `munmap`'s coverage check. -/
def coveredSorted (m : MemorySet) (s e : Nat) : List MapArea :=
  sortLe (fun a b => Nat.ble a.vpn_range.l b.vpn_range.l)
    (m.areas.filter (fun a => a.vpn_range.is_overlapped ⟨s, e⟩))

/-- The covered areas tile `[s, e)` exactly: the first begins at `s`, each
subsequent area begins at the previous one's end, and the last ends at `e`. -/
def tiles : Nat → Nat → List MapArea → Prop
  | s, e, [] => s = e
  | s, e, a :: rest => a.vpn_range.l = s ∧ tiles a.vpn_range.r e rest

def tilesDec : (L : List MapArea) → (s e : Nat) → Decidable (tiles s e L)
  | [], s, e => inferInstanceAs (Decidable (s = e))
  | a :: rest, s, e =>
      haveI : Decidable (tiles a.vpn_range.r e rest) := tilesDec rest a.vpn_range.r e
      inferInstanceAs (Decidable (a.vpn_range.l = s ∧ tiles a.vpn_range.r e rest))

instance (s e : Nat) (L : List MapArea) : Decidable (tiles s e L) := tilesDec L s e

theorem loopCheck_tiles : ∀ (L : List (Nat × MapArea)) (s e : Nat),
    loopCheck (s * PAGE_SIZE) L = some (e * PAGE_SIZE) ↔
      tiles s e (L.map (fun p => p.2)) := by
  intro L
  induction L with
  | nil =>
      intro s e
      rw [loopCheck, List.map_nil]
      show some (s * PAGE_SIZE) = some (e * PAGE_SIZE) ↔ s = e
      constructor
      · intro h
        exact Nat.eq_of_mul_eq_mul_right PAGE_SIZE_pos (Option.some.inj h)
      · intro h
        rw [h]
  | cons p rest ih =>
      intro s e
      rw [loopCheck, List.map_cons]
      show _ ↔ p.2.vpn_range.l = s ∧ tiles p.2.vpn_range.r e (rest.map (fun p => p.2))
      by_cases h : s * PAGE_SIZE = p.2.vpn_range.l * PAGE_SIZE
      · rw [if_pos h, ih]
        have hsl : p.2.vpn_range.l = s :=
          (Nat.eq_of_mul_eq_mul_right PAGE_SIZE_pos h).symm
        simp [hsl]
      · rw [if_neg h]
        have hne : p.2.vpn_range.l ≠ s := fun hls => h (by rw [hls])
        constructor
        · intro hfalse
          exact absurd hfalse (by simp)
        · rintro ⟨hls, _⟩
          exact absurd hls hne

theorem removeFold_translate : ∀ (L : List (Nat × MapArea)) (pt : PageTable)
    (xs : List MapArea) (v : Nat),
    (removeFold L pt xs).1.translate v =
      if ∃ p ∈ L, inArea p.2 v then none else pt.translate v := by
  intro L
  induction L with
  | nil =>
      intro pt xs v
      rw [removeFold, if_neg (by simp)]
  | cons p rest ih =>
      intro pt xs v
      rw [removeFold, ih]
      by_cases hrest : ∃ q ∈ rest, inArea q.2 v
      · rw [if_pos hrest]
        obtain ⟨q, hq, hqv⟩ := hrest
        rw [if_pos ⟨q, List.mem_cons_of_mem p hq, hqv⟩]
      · rw [if_neg hrest, area_unmap_translate]
        by_cases hp : inArea p.2 v
        · rw [if_pos hp, if_pos ⟨p, List.mem_cons_self p rest, hp⟩]
        · rw [if_neg hp, if_neg ?_]
          rintro ⟨q, hq, hqv⟩
          rcases List.mem_cons.mp hq with rfl | hq'
          · exact hp hqv
          · exact hrest ⟨q, hq', hqv⟩

theorem removeFold_areas : ∀ (L : List (Nat × MapArea)) (pt : PageTable)
    (xs : List MapArea),
    (removeFold L pt xs).2 = L.foldl (fun acc q => acc.eraseIdx q.1) xs := by
  intro L
  induction L with
  | nil => intro pt xs; rfl
  | cons p rest ih =>
      intro pt xs
      rw [removeFold, ih, List.foldl_cons]

theorem sortedD_perm (m : MemorySet) (s e : Nat) :
    (sortLe (fun p q => Nat.ble q.1 p.1) (munmapCovered m s e)).Perm
      ((enumIdx 0 m.areas).filter
        (fun p => p.2.vpn_range.is_overlapped ⟨s, e⟩)) :=
  (sortLe_perm _ _).trans (sortLe_perm _ _)

theorem sortedD_strict (m : MemorySet) (s e : Nat) :
    List.Pairwise (fun p q : Nat × MapArea => q.1 < p.1)
      (sortLe (fun p q => Nat.ble q.1 p.1) (munmapCovered m s e)) := by
  have hperm := sortedD_perm m s e
  have hne : List.Pairwise (fun p q : Nat × MapArea => p.1 ≠ q.1)
      ((enumIdx 0 m.areas).filter
        (fun p => p.2.vpn_range.is_overlapped ⟨s, e⟩)) :=
    ((enumIdx_pairwise m.areas 0).filter _).imp (fun h => Nat.ne_of_lt h)
  have hne' : List.Pairwise (fun p q : Nat × MapArea => p.1 ≠ q.1)
      (sortLe (fun p q => Nat.ble q.1 p.1) (munmapCovered m s e)) :=
    (List.Perm.pairwise_iff (fun h => h.symm) hperm).mpr hne
  have hsorted : List.Pairwise
      (fun p q : Nat × MapArea => (Nat.ble q.1 p.1) = true)
      (sortLe (fun p q => Nat.ble q.1 p.1) (munmapCovered m s e)) := by
    refine sortLe_sorted _ ?_ ?_ _
    · intro a b
      rcases Nat.le_total b.1 a.1 with h | h
      · exact Or.inl (by rw [Nat.ble_eq]; exact h)
      · exact Or.inr (by rw [Nat.ble_eq]; exact h)
    · intro a b c hab hbc
      rw [Nat.ble_eq] at *
      omega
  refine (hsorted.and hne').imp ?_
  rintro p q ⟨hle, hne⟩
  rw [Nat.ble_eq] at hle
  omega

theorem munmapRemove_areas (m : MemorySet) (s e : Nat) :
    (munmapRemove m s e).2 =
      m.areas.filter (fun a => ! a.vpn_range.is_overlapped ⟨s, e⟩) := by
  rw [munmapRemove, removeFold_areas, foldl_eraseIdx_desc _ _ (sortedD_strict m s e)]
  rw [dropIdxsFrom_congr_ge _
    (((enumIdx 0 m.areas).filter
      (fun p => p.2.vpn_range.is_overlapped ⟨s, e⟩)).map (fun p => p.1))
    m.areas 0
    (fun j _ => ((sortedD_perm m s e).map (fun p => p.1)).mem_iff)]
  exact dropIdxsFrom_enum_filter
    (fun a => a.vpn_range.is_overlapped ⟨s, e⟩) m.areas 0

theorem munmapRemove_translate (m : MemorySet) (s e v : Nat) :
    (munmapRemove m s e).1.translate v =
      if ∃ a ∈ m.areas, a.vpn_range.is_overlapped ⟨s, e⟩ = true ∧ inArea a v
      then none else m.page_table.translate v := by
  rw [munmapRemove, removeFold_translate]
  have hiff : (∃ p ∈ sortLe (fun p q => Nat.ble q.1 p.1) (munmapCovered m s e),
      inArea p.2 v) ↔
      ∃ a ∈ m.areas, a.vpn_range.is_overlapped ⟨s, e⟩ = true ∧ inArea a v := by
    constructor
    · rintro ⟨p, hp, hv⟩
      have hp' := (sortedD_perm m s e).mem_iff.mp hp
      have hf := List.mem_filter.mp hp'
      exact ⟨p.2, enumIdx_snd_mem m.areas 0 p hf.1, hf.2, hv⟩
    · rintro ⟨a, ha, hov, hv⟩
      obtain ⟨i, hi⟩ := enumIdx_mem_of_mem m.areas 0 a ha
      refine ⟨(i, a), (sortedD_perm m s e).mem_iff.mpr
        (List.mem_filter.mpr ⟨hi, hov⟩), hv⟩
  by_cases h : ∃ a ∈ m.areas, a.vpn_range.is_overlapped ⟨s, e⟩ = true ∧ inArea a v
  · rw [if_pos (hiff.mpr h), if_pos h]
  · rw [if_neg (fun hx => h (hiff.mp hx)), if_neg h]

theorem covered_map_snd (m : MemorySet) (s e : Nat) :
    (munmapCovered m s e).map (fun p => p.2) = coveredSorted m s e := by
  rw [munmapCovered, coveredSorted,
    sortLe_map (fun p : Nat × MapArea => p.2)
      (fun p q => Nat.ble p.2.vpn_range.l q.2.vpn_range.l)
      (fun a b => Nat.ble a.vpn_range.l b.vpn_range.l)
      (fun p q => rfl)]
  exact congrArg (sortLe (fun a b => Nat.ble a.vpn_range.l b.vpn_range.l))
    (enumIdx_filter_map_snd
      (fun a => a.vpn_range.is_overlapped ⟨s, e⟩) m.areas 0)

theorem aligned_floor_mul (start : Nat) (ha : start % PAGE_SIZE = 0) :
    floorVpn start * PAGE_SIZE = start := by
  simp only [floorVpn, PAGE_SIZE] at *
  omega

/-- Full success characterization of `munmap` under tiling. -/
theorem munmap_ok_char (m : MemorySet) (al start len : Nat)
    (ha : start % PAGE_SIZE = 0)
    (ht : tiles (floorVpn start) (ceilVpn (start + len))
      (coveredSorted m (floorVpn start) (ceilVpn (start + len)))) :
    m.munmap al start len =
      (.ok (usizeToIsize len),
       ⟨(munmapRemove m (floorVpn start) (ceilVpn (start + len))).1,
        (munmapRemove m (floorVpn start) (ceilVpn (start + len))).2⟩, al) := by
  rw [MemorySet.munmap, if_neg (by omega)]
  have hlc := (loopCheck_tiles
    (munmapCovered m (floorVpn start) (ceilVpn (start + len)))
    (floorVpn start) (ceilVpn (start + len)))
  rw [covered_map_snd] at hlc
  have hsome := hlc.mpr ht
  rw [aligned_floor_mul start ha] at hsome
  rw [hsome]
  dsimp only
  rw [if_neg (by simp)]

/-- Failure characterization of `munmap` when the covered areas do not tile
the request. -/
theorem munmap_fail_char (m : MemorySet) (al start len : Nat)
    (ha : start % PAGE_SIZE = 0)
    (ht : ¬ tiles (floorVpn start) (ceilVpn (start + len))
      (coveredSorted m (floorVpn start) (ceilVpn (start + len)))) :
    m.munmap al start len = (.error (-1), m, al) := by
  rw [MemorySet.munmap, if_neg (by omega)]
  have hlc := (loopCheck_tiles
    (munmapCovered m (floorVpn start) (ceilVpn (start + len)))
    (floorVpn start) (ceilVpn (start + len)))
  rw [covered_map_snd] at hlc
  cases hc : loopCheck start
      (munmapCovered m (floorVpn start) (ceilVpn (start + len))) with
  | none => rfl
  | some cur =>
      dsimp only
      rw [if_pos ?_]
      intro hcur
      apply ht
      apply hlc.mp
      rw [aligned_floor_mul start ha, hc, hcur]

/-- Claim C2: for page-aligned `start`, `munmap(start, len)` succeeds with
`Ok(len)` exactly when the overlapping areas, sorted ascending by start VPN,
tile `[floor start, ceil (start+len))`; on success exactly those areas are
removed and their pages unmapped, and any gap, partial coverage, or
unaligned start returns `Err(-1)` leaving the state unchanged. -/
theorem claim_C2_munmap_spec (m : MemorySet) (al start len : Nat) :
    (start % PAGE_SIZE ≠ 0 → m.munmap al start len = (.error (-1), m, al)) ∧
    (start % PAGE_SIZE = 0 →
      ((m.munmap al start len).1 = .ok (usizeToIsize len) ↔
        tiles (floorVpn start) (ceilVpn (start + len))
          (coveredSorted m (floorVpn start) (ceilVpn (start + len)))) ∧
      (tiles (floorVpn start) (ceilVpn (start + len))
          (coveredSorted m (floorVpn start) (ceilVpn (start + len))) →
        (m.munmap al start len).2.1.areas =
          m.areas.filter (fun a =>
            ! a.vpn_range.is_overlapped ⟨floorVpn start, ceilVpn (start + len)⟩) ∧
        ∀ v, (m.munmap al start len).2.1.translate v =
          if ∃ a ∈ m.areas,
              a.vpn_range.is_overlapped
                ⟨floorVpn start, ceilVpn (start + len)⟩ = true ∧ inArea a v
          then none else m.translate v) ∧
      (¬ tiles (floorVpn start) (ceilVpn (start + len))
          (coveredSorted m (floorVpn start) (ceilVpn (start + len))) →
        m.munmap al start len = (.error (-1), m, al))) := by
  refine ⟨fun ha => ?_, fun ha => ⟨?_, fun ht => ?_, fun ht => ?_⟩⟩
  · rw [MemorySet.munmap, if_pos ha]
  · constructor
    · intro hok
      by_contra ht
      rw [munmap_fail_char m al start len ha ht] at hok
      exact absurd hok (by simp)
    · intro ht
      rw [munmap_ok_char m al start len ha ht]
  · rw [munmap_ok_char m al start len ha ht]
    refine ⟨munmapRemove_areas m _ _, fun v => ?_⟩
    exact munmapRemove_translate m _ _ v
  · exact munmap_fail_char m al start len ha ht

/-- Witness for C2: `munmap(0x1000, 0x1000)` on a space holding exactly the
area `[1, 2)` succeeds and empties the space. -/
theorem claim_C2_munmap_spec_witness :
    ((0x1000 : Nat) % PAGE_SIZE = 0) ∧
    ((MemorySet.mk ⟨7, [(1, ⟨9, 22⟩)]⟩
        [⟨⟨1, 2⟩, [(1, 9)], .Framed, 22⟩]).munmap 5 0x1000 0x1000).1 =
      .ok (usizeToIsize 0x1000) := by
  refine ⟨by norm_num [PAGE_SIZE], ?_⟩
  exact ((claim_C2_munmap_spec
    (MemorySet.mk ⟨7, [(1, ⟨9, 22⟩)]⟩ [⟨⟨1, 2⟩, [(1, 9)], .Framed, 22⟩])
    5 0x1000 0x1000).2 (by norm_num [PAGE_SIZE])).1.mpr (by decide)

/-! ## Claim C4: mmap/munmap round trip -/

/-- Claim C4 counterexample: on a bare space, `mmap(0x1000, 0, 1)` succeeds
with `Ok(0)` (inserting an empty-range area) and `munmap(0x1000, 0)` then
also succeeds — but it removes nothing, so after the pair the set of area
start VPNs is `{1}` where it was empty before the pair. -/
theorem claim_C4_counterexample :
    ((MemorySet.new_bare 0).1.mmap 1 0x1000 0 1).1 = .ok 0 ∧
    (((MemorySet.new_bare 0).1.mmap 1 0x1000 0 1).2.1.munmap
      ((MemorySet.new_bare 0).1.mmap 1 0x1000 0 1).2.2 0x1000 0).1 = .ok 0 ∧
    (((MemorySet.new_bare 0).1.mmap 1 0x1000 0 1).2.1.munmap
      ((MemorySet.new_bare 0).1.mmap 1 0x1000 0 1).2.2 0x1000 0).2.1.areas.map
        (fun a => a.vpn_range.l) = [1] ∧
    (MemorySet.new_bare 0).1.areas = [] := by
  exact ⟨rfl, rfl, rfl, rfl⟩

/-- Claim C4 (amended): for `len > 0`, if `mmap(s, len, port)` succeeds on a
state whose page table has no translation inside the request range (as in
any invariant-respecting state, where pages outside every area are
unmapped), then `munmap(s, len)` on the result succeeds with `Ok(len)` and
restores the exact area list and every page-table translation. -/
theorem claim_C4_roundtrip (m : MemorySet) (al start len port : Nat)
    (hlen : 0 < len)
    (hok : ∃ v, (m.mmap al start len port).1 = .ok v)
    (hfree : ∀ v ∈ vpnList ⟨floorVpn start, ceilVpn (start + len)⟩,
      m.translate v = none) :
    ((m.mmap al start len port).2.1.munmap
        (m.mmap al start len port).2.2 start len).1 = .ok (usizeToIsize len) ∧
    ((m.mmap al start len port).2.1.munmap
        (m.mmap al start len port).2.2 start len).2.1.areas = m.areas ∧
    ∀ v, ((m.mmap al start len port).2.1.munmap
        (m.mmap al start len port).2.2 start len).2.1.translate v =
      m.translate v := by
  obtain ⟨h1, h2, h3⟩ := mmap_ok_inv m al start len port hok
  have hchar := mmap_ok_char m al start len port h1 h2 h3
  set sV := floorVpn start with hsV
  set eV := ceilVpn (start + len) with heV
  set a0 : MapArea := MapArea.new start (eV * PAGE_SIZE) .Framed
    ((port <<< 1) ||| 0b10000) with ha0
  have ha0f : a0.map_type = .Framed := rfl
  have ha0df : a0.data_frames = [] := rfl
  have ha0rng : a0.vpn_range = ⟨sV, eV⟩ := by
    rw [ha0, MapArea.new]
    show VPNRange.mk (floorVpn start) (ceilVpn (eV * PAGE_SIZE)) = _
    rw [ceilVpn_mul]
  obtain ⟨hmal, hmtr, hmdf⟩ := area_map_framed a0 m.page_table al ha0f
  obtain ⟨hsh1, hsh2, hsh3, hsh4⟩ := mapFold_shape (vpnList a0.vpn_range) a0
    m.page_table al
  rw [← MapArea.map] at hsh1 hsh2 hsh3 hsh4
  set A : MapArea := (a0.map m.page_table al).1 with hA
  have hArng : A.vpn_range = ⟨sV, eV⟩ := by rw [hA, hsh1, ha0rng]
  have hm1 : (m.mmap al start len port).2.1 =
      ⟨(a0.map m.page_table al).2.1, m.areas ++ [A]⟩ := by
    rw [hchar]
    rfl
  have hsVlt : sV < eV := by
    rw [hsV, heV]
    exact floorVpn_lt_ceilVpn_of_lt start (start + len) (by omega) h2
  have hovlA : A.vpn_range.is_overlapped ⟨sV, eV⟩ = true := by
    rw [hArng, VPNRange.is_overlapped]
    simp [hsVlt]
  have hnotovl : ∀ a ∈ m.areas, a.vpn_range.is_overlapped ⟨sV, eV⟩ = false := by
    intro a ha
    rcases hb : a.vpn_range.is_overlapped ⟨sV, eV⟩ with _ | _
    · rfl
    · exact absurd ((is_mapped_area_iff m sV eV).mpr ⟨a, ha, hb⟩) (by rw [h3]; simp)
  have hcov : coveredSorted (⟨(a0.map m.page_table al).2.1, m.areas ++ [A]⟩ : MemorySet)
      sV eV = [A] := by
    rw [coveredSorted]
    show sortLe _ ((m.areas ++ [A]).filter
      (fun a => a.vpn_range.is_overlapped ⟨sV, eV⟩)) = [A]
    rw [List.filter_append]
    have hfilnil : m.areas.filter (fun a => a.vpn_range.is_overlapped ⟨sV, eV⟩) = [] := by
      rw [List.filter_eq_nil_iff]
      intro a ha
      rw [hnotovl a ha]
      simp
    rw [hfilnil, List.nil_append, List.filter_cons, if_pos (by rw [hovlA])]
    rfl
  have htiles : tiles sV eV (coveredSorted
      (⟨(a0.map m.page_table al).2.1, m.areas ++ [A]⟩ : MemorySet) sV eV) := by
    rw [hcov]
    show A.vpn_range.l = sV ∧ tiles A.vpn_range.r eV []
    rw [hArng]
    exact ⟨rfl, rfl⟩
  rw [hm1]
  have hmm := munmap_ok_char ⟨(a0.map m.page_table al).2.1, m.areas ++ [A]⟩
    (m.mmap al start len port).2.2 start len h2 (by rw [← hsV, ← heV]; exact htiles)
  rw [← hsV, ← heV] at hmm
  rw [hmm]
  refine ⟨rfl, ?_, fun v => ?_⟩
  · show (munmapRemove ⟨(a0.map m.page_table al).2.1, m.areas ++ [A]⟩ sV eV).2 = m.areas
    rw [munmapRemove_areas]
    show (m.areas ++ [A]).filter (fun a => ! a.vpn_range.is_overlapped ⟨sV, eV⟩)
      = m.areas
    rw [List.filter_append, List.filter_cons, if_neg (by rw [hovlA]; simp)]
    rw [List.filter_eq_self.mpr (fun a ha => by rw [hnotovl a ha]; simp)]
    simp
  · show (munmapRemove ⟨(a0.map m.page_table al).2.1, m.areas ++ [A]⟩ sV eV).1.translate v
      = m.translate v
    rw [munmapRemove_translate]
    by_cases hin : sV ≤ v ∧ v < eV
    · rw [if_pos ⟨A, by simp, hovlA, by rw [inArea, hArng]; exact hin⟩]
      rw [(hfree v ((mem_vpnList _ v).mpr hin)).symm]
    · rw [if_neg ?_]
      · show (a0.map m.page_table al).2.1.translate v = m.translate v
        rw [hmtr v, if_neg (by rw [inArea, ha0rng]; exact hin)]
        rfl
      · rintro ⟨b, hb, hbov, hbv⟩
        rcases List.mem_append.mp hb with hbm | hbA
        · rw [hnotovl b hbm] at hbov
          exact absurd hbov (by simp)
        · have : b = A := by simpa using hbA
          rw [this, inArea, hArng] at hbv
          exact hin hbv

/-- Witness for C4 at `mmap(0x1000, 0x1000, 1)` on a bare space. -/
theorem claim_C4_roundtrip_witness :
    (0 : Nat) < 0x1000 ∧
    (((MemorySet.new_bare 0).1.mmap 1 0x1000 0x1000 1).2.1.munmap
      ((MemorySet.new_bare 0).1.mmap 1 0x1000 0x1000 1).2.2 0x1000 0x1000).2.1.areas =
      (MemorySet.new_bare 0).1.areas := by
  refine ⟨by norm_num, ?_⟩
  exact (claim_C4_roundtrip (MemorySet.new_bare 0).1 1 0x1000 0x1000 1
    (by norm_num) ⟨0x1000, rfl⟩ (by decide)).2.1

/-! ## Claim C7: from_elf user-stack placement -/

def segEndVpn (s : LoadSeg) : Nat := ceilVpn (s.vaddr + s.mem_size)

/-- Well-formed LOAD layout: segments appear in ascending `p_vaddr` order
(the ELF gABI requires this of loadable program headers) and are
page-disjoint. -/
def elfSorted (segs : List LoadSeg) : Prop :=
  List.Pairwise (fun s1 s2 => segEndVpn s1 ≤ floorVpn s2.vaddr) segs

/-- The maximum end VPN across LOAD segments, as the claim words it. -/
def maxEndVpn (segs : List LoadSeg) : Nat :=
  segs.foldr (fun s acc => max (segEndVpn s) acc) 0

theorem ceilVpn_mono (x y : Nat) (h : x ≤ y) : ceilVpn x ≤ ceilVpn y := by
  simp only [ceilVpn, PAGE_SIZE]
  omega

theorem mem_le_maxEndVpn : ∀ (segs : List LoadSeg) (s : LoadSeg),
    s ∈ segs → segEndVpn s ≤ maxEndVpn segs := by
  intro segs
  induction segs with
  | nil => intro s hs; simp at hs
  | cons t rest ih =>
      intro s hs
      rcases List.mem_cons.mp hs with rfl | hs'
      · exact Nat.le_max_left _ _
      · exact Nat.le_trans (ih s hs') (Nat.le_max_right _ _)

theorem elfLoadFold_end : ∀ (segs : List LoadSeg) (m : MemorySet) (al mE : Nat),
    elfSorted segs → segs ≠ [] →
    (elfLoadFold segs m al mE).2.2 = maxEndVpn segs := by
  intro segs
  induction segs with
  | nil => intro m al mE _ hne; exact absurd rfl hne
  | cons s rest ih =>
      intro m al mE hsorted _
      rw [elfLoadFold]
      simp only [elfSorted, List.pairwise_cons] at hsorted
      obtain ⟨hhead, htail⟩ := hsorted
      cases rest with
      | nil =>
          show segEndVpn s = maxEndVpn [s]
          rw [maxEndVpn, List.foldr_cons, List.foldr_nil, Nat.max_comm]
          rw [Nat.max_eq_right (Nat.zero_le _)]
      | cons t rest' =>
          rw [ih _ _ _ htail (by simp)]
          have hle : segEndVpn s ≤ maxEndVpn (t :: rest') := by
            have h1 : segEndVpn s ≤ floorVpn t.vaddr :=
              hhead t (List.mem_cons_self t rest')
            have h2 : floorVpn t.vaddr ≤ segEndVpn t := by
              rw [segEndVpn]
              exact Nat.le_trans (floorVpn_le_ceilVpn t.vaddr)
                (ceilVpn_mono _ _ (Nat.le_add_right _ _))
            exact Nat.le_trans (Nat.le_trans h1 h2)
              (mem_le_maxEndVpn (t :: rest') t (List.mem_cons_self t rest'))
          have hrw : maxEndVpn (s :: t :: rest') =
              max (segEndVpn s) (maxEndVpn (t :: rest')) := rfl
          rw [hrw, Nat.max_eq_right hle]

/-- Claim C7: for a well-formed ELF image with at least one LOAD segment,
`from_elf` places the user stack one guard page past the maximum end VPN of
the LOAD segments: the stack area covers exactly `USER_STACK_SIZE` bytes
starting at that boundary plus one page, is Framed with R|W|U, and the
returned `user_sp` is the stack bottom plus `USER_STACK_SIZE`. -/
theorem claim_C7_from_elf_stack (img : ElfImage) (al : Nat)
    (hmagic : img.magicOk = true) (hne : img.segs ≠ [])
    (hsorted : elfSorted img.segs) :
    ∃ m al' sp, MemorySet.from_elf img al = some (m, al', sp, img.entry) ∧
      sp = (maxEndVpn img.segs + 1) * PAGE_SIZE + USER_STACK_SIZE ∧
      ∃ a, a ∈ m.areas ∧
        a.vpn_range = ⟨maxEndVpn img.segs + 1,
          maxEndVpn img.segs + 1 + USER_STACK_SIZE / PAGE_SIZE⟩ ∧
        (a.vpn_range.r - a.vpn_range.l) * PAGE_SIZE = USER_STACK_SIZE ∧
        a.vpn_range.l * PAGE_SIZE = maxEndVpn img.segs * PAGE_SIZE + PAGE_SIZE ∧
        a.map_type = .Framed ∧
        a.map_perm = MapPermission.R ||| MapPermission.W ||| MapPermission.U := by
  rw [MemorySet.from_elf, if_neg (by rw [hmagic]; simp)]
  set b := MemorySet.new_bare al with hb
  set r1 := elfLoadFold img.segs b.1.map_trampoline b.2 0 with hr1
  have hmax : r1.2.2 = maxEndVpn img.segs :=
    elfLoadFold_end img.segs b.1.map_trampoline b.2 0 hsorted hne
  set usb := r1.2.2 * PAGE_SIZE + PAGE_SIZE with husb
  set a0 : MapArea := MapArea.new usb (usb + USER_STACK_SIZE) .Framed
    (MapPermission.R ||| MapPermission.W ||| MapPermission.U) with ha0
  set r2 := r1.1.push a0 r1.2.1 with hr2
  set A : MapArea := (a0.map r1.1.page_table r1.2.1).1 with hA
  obtain ⟨hsh1, hsh2, hsh3, _⟩ :=
    mapFold_shape (vpnList a0.vpn_range) a0 r1.1.page_table r1.2.1
  rw [← MapArea.map, ← hA] at hsh1 hsh2 hsh3
  refine ⟨_, _, _, rfl, by rw [hmax]; ring, A, ?_, ?_, ?_, ?_, ?_, ?_⟩
  · show A ∈ (r2.1.push _ r2.2).1.areas
    rw [MemorySet.push]
    refine List.mem_append.mpr (Or.inl ?_)
    rw [hr2, MemorySet.push]
    exact List.mem_append.mpr (Or.inr (List.mem_cons_self A []))
  · rw [hsh1, ha0, MapArea.new]
    show VPNRange.mk (floorVpn usb) (ceilVpn (usb + USER_STACK_SIZE)) = _
    rw [husb, hmax, VPNRange.mk.injEq]
    simp only [floorVpn, ceilVpn, USER_STACK_SIZE, PAGE_SIZE]
    omega
  · rw [hsh1, ha0, MapArea.new]
    show (ceilVpn (usb + USER_STACK_SIZE) - floorVpn usb) * PAGE_SIZE =
      USER_STACK_SIZE
    rw [husb]
    simp only [floorVpn, ceilVpn, USER_STACK_SIZE, PAGE_SIZE]
    omega
  · rw [hsh1, ha0, MapArea.new]
    show floorVpn usb * PAGE_SIZE = maxEndVpn img.segs * PAGE_SIZE + PAGE_SIZE
    rw [husb, hmax]
    simp only [floorVpn, PAGE_SIZE]
    omega
  · rw [hsh2]
    rfl
  · rw [hsh3]
    rfl

/-- Witness for C7 at a one-segment image (RX LOAD at `0x10000`, size
`0x2000`). -/
theorem claim_C7_from_elf_stack_witness :
    ((ElfImage.mk true [⟨0x10000, 0x2000, true, false, true⟩] 0x10000).magicOk
      = true) ∧
    ∃ m al' sp, MemorySet.from_elf
        (ElfImage.mk true [⟨0x10000, 0x2000, true, false, true⟩] 0x10000) 100 =
        some (m, al', sp,
          (ElfImage.mk true [⟨0x10000, 0x2000, true, false, true⟩] 0x10000).entry) ∧
      sp = (maxEndVpn
          (ElfImage.mk true [⟨0x10000, 0x2000, true, false, true⟩] 0x10000).segs
        + 1) * PAGE_SIZE + USER_STACK_SIZE ∧
      ∃ a, a ∈ m.areas ∧
        a.vpn_range = ⟨maxEndVpn
            (ElfImage.mk true [⟨0x10000, 0x2000, true, false, true⟩] 0x10000).segs
          + 1,
          maxEndVpn
            (ElfImage.mk true [⟨0x10000, 0x2000, true, false, true⟩] 0x10000).segs
          + 1 + USER_STACK_SIZE / PAGE_SIZE⟩ ∧
        (a.vpn_range.r - a.vpn_range.l) * PAGE_SIZE = USER_STACK_SIZE ∧
        a.vpn_range.l * PAGE_SIZE = maxEndVpn
            (ElfImage.mk true [⟨0x10000, 0x2000, true, false, true⟩] 0x10000).segs
          * PAGE_SIZE + PAGE_SIZE ∧
        a.map_type = .Framed ∧
        a.map_perm = MapPermission.R ||| MapPermission.W ||| MapPermission.U := by
  refine ⟨rfl, ?_⟩
  exact claim_C7_from_elf_stack
    (ElfImage.mk true [⟨0x10000, 0x2000, true, false, true⟩] 0x10000) 100
    rfl (by simp) (by rw [elfSorted]; exact List.pairwise_singleton _ _)

/-! ## Claim C8: address-space cloning -/

/-- The observable shape of an area: range, policy, permissions. -/
def areaShape (a : MapArea) : Nat × Nat × MapType × Nat :=
  (a.vpn_range.l, a.vpn_range.r, a.map_type, a.map_perm)

/-- Effect of the page-copy loop: it succeeds when both translations are
defined, leaves every page below `B` (and every page that is no VPN's
destination) untouched, and ends with each destination page holding the
source page's bytes. -/
theorem copyRange_spec : ∀ (vs : List Nat) (src dst : MemorySet) (mem : Mem)
    (B : Nat),
    (∀ v ∈ vs, ∃ p, src.translate v = some p ∧ p.ppn < B) →
    (∀ v ∈ vs, ∃ q, dst.translate v = some q ∧ B ≤ q.ppn) →
    List.Pairwise (fun v w => ∀ q q', dst.translate v = some q →
      dst.translate w = some q' → q.ppn ≠ q'.ppn) vs →
    ∃ mem', copyRange src dst vs mem = some mem' ∧
      (∀ r, r < B → mem' r = mem r) ∧
      (∀ r, (∀ w ∈ vs, ∀ q', dst.translate w = some q' → r ≠ q'.ppn) →
        mem' r = mem r) ∧
      (∀ v ∈ vs, ∀ p q, src.translate v = some p → dst.translate v = some q →
        ∀ off, mem' q.ppn off = mem p.ppn off) := by
  intro vs
  induction vs with
  | nil =>
      intro src dst mem B _ _ _
      exact ⟨mem, rfl, fun r _ => rfl, fun r _ => rfl, fun v hv => by simp at hv⟩
  | cons v rest ih =>
      intro src dst mem B hsrc hdst hpair
      obtain ⟨p, hp, hpB⟩ := hsrc v (List.mem_cons_self v rest)
      obtain ⟨q, hq, hqB⟩ := hdst v (List.mem_cons_self v rest)
      rw [List.pairwise_cons] at hpair
      obtain ⟨hhead, htail⟩ := hpair
      obtain ⟨mem', hcr, hlow, hout, hcontent⟩ := ih src dst
        (memCopy mem q.ppn p.ppn) B
        (fun w hw => hsrc w (List.mem_cons_of_mem v hw))
        (fun w hw => hdst w (List.mem_cons_of_mem v hw)) htail
      refine ⟨mem', ?_, ?_, ?_, ?_⟩
      · rw [copyRange, hp, hq]
        exact hcr
      · intro r hr
        rw [hlow r hr, memCopy, if_neg (by omega)]
      · intro r hr
        have hr' : ∀ w ∈ rest, ∀ q', dst.translate w = some q' → r ≠ q'.ppn :=
          fun w hw q' hq' => hr w (List.mem_cons_of_mem v hw) q' hq'
        rw [hout r hr', memCopy,
          if_neg (hr v (List.mem_cons_self v rest) q hq)]
      · intro w hw p' q' hp' hq' off
        rcases List.mem_cons.mp hw with rfl | hw'
        · have hpq : p = p' := Option.some.inj (hp.symm.trans hp')
          have hqq : q = q' := Option.some.inj (hq.symm.trans hq')
          rw [← hpq, ← hqq]
          have hq'notin : ∀ w ∈ rest, ∀ q2, dst.translate w = some q2 →
              q.ppn ≠ q2.ppn :=
            fun w hw q2 hq2 => hhead w hw q q2 hq hq2
          rw [show mem' q.ppn = (memCopy mem q.ppn p.ppn) q.ppn from
            hout q.ppn hq'notin]
          rw [memCopy]
          rw [if_pos rfl]
        · have := hcontent w hw' p' q' hp' hq' off
          rw [this, memCopy]
          have hpB' : p'.ppn < B := by
            obtain ⟨p2, hp2, hp2B⟩ := hsrc w (List.mem_cons_of_mem v hw')
            rw [hp'] at hp2
            rw [(Option.some.inj hp2).symm] at hp2B
            exact hp2B
          rw [if_neg (by omega)]

theorem disjoint_not_inArea (a b : MapArea) (v : Nat)
    (hd : b.vpn_range.r ≤ a.vpn_range.l ∨ a.vpn_range.r ≤ b.vpn_range.l)
    (hv : inArea a v) : ¬ inArea b v := by
  rw [inArea] at *
  omega

/-- Main induction for `from_existed_user`: processing a list of Framed,
pairwise-disjoint areas clones their shapes, allocates only fresh frames,
and copies each page's contents. -/
theorem cloneFold_spec : ∀ (areas : List MapArea) (src cur : MemorySet)
    (alc : Nat) (mem : Mem) (B : Nat),
    (∀ a ∈ areas, a.map_type = .Framed) →
    List.Pairwise (fun a b =>
      b.vpn_range.r ≤ a.vpn_range.l ∨ a.vpn_range.r ≤ b.vpn_range.l) areas →
    (∀ a ∈ areas, ∀ v ∈ vpnList a.vpn_range,
      ∃ p, src.translate v = some p ∧ p.ppn < B) →
    B ≤ alc →
    ∃ m' al' mem', cloneAreasFold src areas cur alc mem = some (m', al', mem') ∧
      alc ≤ al' ∧
      m'.areas.map areaShape = cur.areas.map areaShape ++ areas.map areaShape ∧
      (∀ r, r < alc → mem' r = mem r) ∧
      (∀ v, (∀ a ∈ areas, ¬ inArea a v) → m'.translate v = cur.translate v) ∧
      (∀ a ∈ areas, ∀ v ∈ vpnList a.vpn_range,
        ∃ p q, src.translate v = some p ∧ m'.translate v = some q ∧
          alc ≤ q.ppn ∧ (∀ off, mem' q.ppn off = mem p.ppn off)) := by
  intro areas
  induction areas with
  | nil =>
      intro src cur alc mem B _ _ _ _
      refine ⟨cur, alc, mem, rfl, Nat.le_refl alc, by simp, fun r _ => rfl,
        fun v _ => rfl, fun a ha => by simp at ha⟩
  | cons a rest ih =>
      intro src cur alc mem B hframed hdisj htr hBalc
      rw [List.pairwise_cons] at hdisj
      obtain ⟨hhead, htaildisj⟩ := hdisj
      have haf : a.from_another.map_type = .Framed := by
        rw [MapArea.from_another]
        exact hframed a (List.mem_cons_self a rest)
      have hadf : a.from_another.data_frames = [] := rfl
      have harng : a.from_another.vpn_range = ⟨a.vpn_range.l, a.vpn_range.r⟩ := rfl
      obtain ⟨hmal, hmtr, _⟩ := area_map_framed a.from_another cur.page_table alc haf
      set A : MapArea := (a.from_another.map cur.page_table alc).1 with hA
      obtain ⟨hsh1, hsh2, hsh3, _⟩ :=
        mapFold_shape (vpnList a.from_another.vpn_range) a.from_another
          cur.page_table alc
      rw [← MapArea.map, ← hA] at hsh1 hsh2 hsh3
      set cur1 : MemorySet := (cur.push a.from_another alc).1 with hcur1
      set alc1 : Nat := (cur.push a.from_another alc).2 with halc1
      have hcur1pt : ∀ v, cur1.translate v =
          if inArea a.from_another v
          then some ⟨alc + (v - a.from_another.vpn_range.l),
            a.from_another.map_perm⟩
          else cur.translate v := by
        intro v
        rw [hcur1, MemorySet.push]
        exact hmtr v
      have halc1v : alc1 = alc + (a.vpn_range.r - a.vpn_range.l) := by
        rw [halc1, MemorySet.push]
        exact hmal
      have hinA : ∀ v, inArea a.from_another v ↔
          (a.vpn_range.l ≤ v ∧ v < a.vpn_range.r) := by
        intro v
        rw [inArea, harng]
      -- the copy loop over this area's pages
      have hsrcvs : ∀ v ∈ vpnList a.vpn_range,
          ∃ p, src.translate v = some p ∧ p.ppn < alc := by
        intro v hv
        obtain ⟨p, hp, hpB⟩ := htr a (List.mem_cons_self a rest) v hv
        exact ⟨p, hp, by omega⟩
      have hdstvs : ∀ v ∈ vpnList a.vpn_range,
          ∃ q, cur1.translate v = some q ∧ alc ≤ q.ppn := by
        intro v hv
        rw [mem_vpnList] at hv
        refine ⟨⟨alc + (v - a.vpn_range.l), a.from_another.map_perm⟩, ?_,
          Nat.le_add_right alc _⟩
        rw [hcur1pt v, if_pos ((hinA v).mpr hv)]
        rw [harng]
      have hpairvs : List.Pairwise (fun v w => ∀ q q',
          cur1.translate v = some q → cur1.translate w = some q' →
          q.ppn ≠ q'.ppn) (vpnList a.vpn_range) := by
        have hnd : List.Pairwise (fun v w : Nat => v ≠ w) (vpnList a.vpn_range) := by
          rw [vpnList]
          have := List.nodup_range' a.vpn_range.l
            (a.vpn_range.r - a.vpn_range.l) 1
          exact this
        have hmemlist := fun v => (mem_vpnList a.vpn_range v).mp
        refine List.Pairwise.imp_of_mem ?_ hnd
        intro v w hv hw hne q q' hq hq'
        have hv' := (mem_vpnList a.vpn_range v).mp hv
        have hw' := (mem_vpnList a.vpn_range w).mp hw
        rw [hcur1pt v, if_pos ((hinA v).mpr hv')] at hq
        rw [hcur1pt w, if_pos ((hinA w).mpr hw')] at hq'
        have hqv := Option.some.inj hq
        have hqw := Option.some.inj hq'
        rw [← hqv, ← hqw, harng]
        simp only
        omega
      obtain ⟨mem1, hcopy, hmemlow, hmemout, hmemcontent⟩ :=
        copyRange_spec (vpnList a.vpn_range) src cur1 mem alc hsrcvs hdstvs hpairvs
      -- the recursive call
      obtain ⟨m', al', mem', hrec, hal, hshape, hmem2, htrans2, hcontent2⟩ :=
        ih src cur1 alc1 mem1 B (fun b hb => hframed b (List.mem_cons_of_mem a hb))
          htaildisj
          (fun b hb => htr b (List.mem_cons_of_mem a hb))
          (by omega)
      refine ⟨m', al', mem', ?_, by omega, ?_, ?_, ?_, ?_⟩
      · rw [cloneAreasFold]
        show (match copyRange src (cur.push a.from_another alc).1
            (vpnList a.vpn_range) mem with
          | none => none
          | some mem1 => cloneAreasFold src rest (cur.push a.from_another alc).1
              (cur.push a.from_another alc).2 mem1) = _
        rw [← hcur1, hcopy, ← halc1]
        exact hrec
      · rw [hshape]
        have hcur1areas : cur1.areas = cur.areas ++ [A] := by
          rw [hcur1, MemorySet.push]
        rw [hcur1areas, List.map_append, List.map_cons]
        have hshA : areaShape A = areaShape a := by
          rw [areaShape, areaShape, hsh1, hsh2, hsh3, harng, MapArea.from_another]
        rw [List.map_cons]
        simp [hshA]
      · intro r hr
        rw [hmem2 r (by omega), hmemlow r hr]
      · intro v hv
        rw [htrans2 v (fun b hb => hv b (List.mem_cons_of_mem a hb))]
        rw [hcur1pt v, if_neg ?_]
        intro hin
        exact hv a (List.mem_cons_self a rest) ((hinA v).mp hin |> fun h => by
          rw [inArea]; exact h)
      · intro b hb v hv
        rcases List.mem_cons.mp hb with rfl | hb'
        · -- the area processed in this step
          have hv' := (mem_vpnList b.vpn_range v).mp hv
          obtain ⟨p, hp, hpB⟩ := htr b (List.mem_cons_self b rest) v hv
          refine ⟨p, ⟨alc + (v - b.vpn_range.l), b.from_another.map_perm⟩, hp, ?_,
            Nat.le_add_right alc _, ?_⟩
          · rw [htrans2 v ?_, hcur1pt v, if_pos ((hinA v).mpr hv'), harng]
            intro c hc
            exact disjoint_not_inArea b c v (hhead c hc) (by rw [inArea]; exact hv')
          · intro off
            have hqlt : alc + (v - b.vpn_range.l) < alc1 := by
              rw [halc1v]
              omega
            rw [hmem2 _ hqlt]
            have := hmemcontent v hv p
              ⟨alc + (v - b.vpn_range.l), b.from_another.map_perm⟩ hp ?_ off
            · exact this
            · rw [hcur1pt v, if_pos ((hinA v).mpr hv'), harng]
        · obtain ⟨p, q, hp, hq, hqa, hqc⟩ := hcontent2 b hb' v hv
          refine ⟨p, q, hp, hq, by omega, fun off => ?_⟩
          rw [hqc off]
          obtain ⟨p2, hp2, hp2B⟩ := htr b (List.mem_cons_of_mem a hb') v hv
          rw [hp] at hp2
          have hpe : p = p2 := Option.some.inj hp2
          rw [← hpe] at hp2B
          rw [hmemlow p.ppn (by omega)]

/-- Claim C8: for a user `MemorySet` (all areas Framed, pairwise disjoint,
every covered VPN translating to a frame below the allocator head),
`from_existed_user` yields a clone of identical area shape whose
translations land on distinct fresh frames carrying bytewise-equal page
contents. -/
theorem claim_C8_from_existed_user (src : MemorySet) (al : Nat) (mem : Mem)
    (hframed : ∀ a ∈ src.areas, a.map_type = .Framed)
    (hdisj : List.Pairwise (fun a b =>
      b.vpn_range.r ≤ a.vpn_range.l ∨ a.vpn_range.r ≤ b.vpn_range.l) src.areas)
    (htr : ∀ a ∈ src.areas, ∀ v ∈ vpnList a.vpn_range,
      ∃ p, src.translate v = some p ∧ p.ppn < al) :
    ∃ m' al' mem', MemorySet.from_existed_user src al mem = some (m', al', mem') ∧
      m'.areas.map areaShape = src.areas.map areaShape ∧
      ∀ a ∈ src.areas, ∀ v ∈ vpnList a.vpn_range,
        ∃ p q, src.translate v = some p ∧ m'.translate v = some q ∧
          p.ppn ≠ q.ppn ∧ ∀ off, mem' q.ppn off = mem' p.ppn off := by
  obtain ⟨m', al', mem', hrun, hal, hshape, hmemlow, _, hcontent⟩ :=
    cloneFold_spec src.areas src
      (MemorySet.new_bare al).1.map_trampoline (al + 1) mem al hframed hdisj htr
      (by omega)
  refine ⟨m', al', mem', hrun, ?_, ?_⟩
  · rw [hshape]
    show ((MemorySet.new_bare al).1.map_trampoline.areas.map areaShape)
      ++ _ = _
    rw [show (MemorySet.new_bare al).1.map_trampoline.areas = [] from rfl]
    rfl
  · intro a ha v hv
    obtain ⟨p, q, hp, hq, hqa, hqc⟩ := hcontent a ha v hv
    obtain ⟨p2, hp2, hp2B⟩ := htr a ha v hv
    rw [hp] at hp2
    have hpe : p = p2 := Option.some.inj hp2
    rw [← hpe] at hp2B
    refine ⟨p, q, hp, hq, by omega, fun off => ?_⟩
    rw [hqc off, hmemlow p.ppn (by omega)]

/-- Witness for C8 on a one-page user space. -/
theorem claim_C8_from_existed_user_witness :
    ∃ m' al' mem', MemorySet.from_existed_user
        (MemorySet.mk ⟨0, [(1, ⟨5, 22⟩)]⟩ [⟨⟨1, 2⟩, [(1, 5)], .Framed, 22⟩]) 6
        (fun _ _ => 0) = some (m', al', mem') ∧
      m'.areas.map areaShape =
        (MemorySet.mk ⟨0, [(1, ⟨5, 22⟩)]⟩
          [⟨⟨1, 2⟩, [(1, 5)], .Framed, 22⟩]).areas.map areaShape ∧
      ∀ a ∈ (MemorySet.mk ⟨0, [(1, ⟨5, 22⟩)]⟩
          [⟨⟨1, 2⟩, [(1, 5)], .Framed, 22⟩]).areas,
        ∀ v ∈ vpnList a.vpn_range,
        ∃ p q, (MemorySet.mk ⟨0, [(1, ⟨5, 22⟩)]⟩
            [⟨⟨1, 2⟩, [(1, 5)], .Framed, 22⟩]).translate v = some p ∧
          m'.translate v = some q ∧
          p.ppn ≠ q.ppn ∧ ∀ off, mem' q.ppn off = mem' p.ppn off := by
  exact claim_C8_from_existed_user
    (MemorySet.mk ⟨0, [(1, ⟨5, 22⟩)]⟩ [⟨⟨1, 2⟩, [(1, 5)], .Framed, 22⟩]) 6
    (fun _ _ => 0) (by decide) (by decide) (by decide)

/-! ## Claim C5: the area/page-table consistency invariant -/

/-- A PTE matches an area's policy: Framed entries point at the area's owned
frame for that VPN; Identical/Mmio entries point at the VPN itself. -/
def policyOk (a : MapArea) (v : Nat) (pte : PTE) : Prop :=
  if a.map_type = .Framed then alLookup a.data_frames v = some pte.ppn
  else pte.ppn = v

/-- The invariant exactly as the claim states it: every VPN inside an area
translates to an entry matching that area's policy and permission bits, and
every VPN outside all areas is untranslated, the trampoline page being the
sole exception. -/
def ClaimInv (m : MemorySet) : Prop :=
  (∀ a ∈ m.areas, ∀ v, inArea a v →
    ∃ pte, m.translate v = some pte ∧ pte.flags = a.map_perm ∧ policyOk a v pte) ∧
  (∀ v, (∀ a ∈ m.areas, ¬ inArea a v) → v ≠ TRAMP_VPN → m.translate v = none)

def areasDisjoint (a b : MapArea) : Prop :=
  b.vpn_range.r ≤ a.vpn_range.l ∨ a.vpn_range.r ≤ b.vpn_range.l

theorem areasDisjoint_symm {a b : MapArea} (h : areasDisjoint a b) :
    areasDisjoint b a := by
  rw [areasDisjoint] at *
  omega

theorem areasDisjoint_congr {a a' b : MapArea}
    (hr : a'.vpn_range = a.vpn_range) (h : areasDisjoint b a) :
    areasDisjoint b a' := by
  rw [areasDisjoint] at *
  rw [hr]
  exact h

/-- The strengthened induction invariant: the claim's invariant plus
pairwise disjointness of the areas. -/
def Inv (m : MemorySet) : Prop :=
  ClaimInv m ∧ List.Pairwise areasDisjoint m.areas

theorem not_overlapped_iff (r1 r2 : VPNRange) :
    r1.is_overlapped r2 = false ↔ (r2.r ≤ r1.l ∨ r1.r ≤ r2.l) := by
  rw [VPNRange.is_overlapped]
  rcases Nat.lt_or_ge r1.l r2.r with h | h <;>
    rcases Nat.lt_or_ge r2.l r1.r with h' | h' <;>
      simp [h, h'] <;> omega

/-- The PPN installed by `map_one` for a VPN of the pushed area. -/
def pushPpn (a : MapArea) (al v : Nat) : Nat :=
  if a.map_type = .Framed then al + (v - a.vpn_range.l) else v

/-- Full characterization of `MemorySet::push` for an area with no
pre-existing frames. -/
theorem push_char (m : MemorySet) (a : MapArea) (al : Nat)
    (hdf : a.data_frames = []) :
    ∃ A, (m.push a al).1.areas = m.areas ++ [A] ∧
      A.vpn_range = a.vpn_range ∧ A.map_type = a.map_type ∧
      A.map_perm = a.map_perm ∧
      (∀ v, (m.push a al).1.translate v =
        if inArea a v then some ⟨pushPpn a al v, a.map_perm⟩
        else m.translate v) ∧
      (∀ v, inArea a v → policyOk A v ⟨pushPpn a al v, a.map_perm⟩) := by
  obtain ⟨hsh1, hsh2, hsh3, _⟩ := mapFold_shape (vpnList a.vpn_range) a
    m.page_table al
  rw [← MapArea.map] at hsh1 hsh2 hsh3
  refine ⟨(a.map m.page_table al).1, by rw [MemorySet.push], hsh1, hsh2, hsh3,
    ?_, ?_⟩
  · intro v
    rcases hft : a.map_type with _ | _ | _
    · obtain ⟨_, _, htr⟩ := area_map_ident a m.page_table al (by rw [hft]; simp)
      rw [MemorySet.push]
      show (a.map m.page_table al).2.1.translate v = _
      have hppn : pushPpn a al v = v := by
        rw [pushPpn, if_neg (by rw [hft]; simp)]
      rw [htr v, hppn]
      rfl
    · obtain ⟨_, htr, _⟩ := area_map_framed a m.page_table al hft
      rw [MemorySet.push]
      show (a.map m.page_table al).2.1.translate v = _
      have hppn : pushPpn a al v = al + (v - a.vpn_range.l) := by
        rw [pushPpn, if_pos hft]
      rw [htr v, hppn]
      rfl
    · obtain ⟨_, _, htr⟩ := area_map_ident a m.page_table al (by rw [hft]; simp)
      rw [MemorySet.push]
      show (a.map m.page_table al).2.1.translate v = _
      have hppn : pushPpn a al v = v := by
        rw [pushPpn, if_neg (by rw [hft]; simp)]
      rw [htr v, hppn]
      rfl
  · intro v hv
    rcases hft : a.map_type with _ | _ | _
    · have hppn : pushPpn a al v = v := by
        rw [pushPpn, if_neg (by rw [hft]; simp)]
      rw [policyOk, if_neg (by rw [hsh2, hft]; simp)]
      show pushPpn a al v = v
      exact hppn
    · obtain ⟨_, _, hdfc⟩ := area_map_framed a m.page_table al hft
      have hppn : pushPpn a al v = al + (v - a.vpn_range.l) := by
        rw [pushPpn, if_pos hft]
      rw [policyOk, if_pos (by rw [hsh2, hft])]
      rw [hdfc v, if_pos hv]
      show some (al + (v - a.vpn_range.l)) = some (pushPpn a al v)
      rw [hppn]
    · have hppn : pushPpn a al v = v := by
        rw [pushPpn, if_neg (by rw [hft]; simp)]
      rw [policyOk, if_neg (by rw [hsh2, hft]; simp)]
      show pushPpn a al v = v
      exact hppn

/-- Pushing a fresh area disjoint from all existing areas preserves the
invariant. -/
theorem push_preserves_Inv (m : MemorySet) (a : MapArea) (al : Nat)
    (hInv : Inv m) (hdf : a.data_frames = [])
    (hdisj : ∀ b ∈ m.areas, areasDisjoint b a) :
    Inv (m.push a al).1 := by
  obtain ⟨⟨hcov, hstray⟩, hpair⟩ := hInv
  obtain ⟨A, hareas, hr1, hr2, hr3, htr, hpol⟩ := push_char m a al hdf
  have hinA : ∀ v, inArea A v ↔ inArea a v := by
    intro v
    rw [inArea, inArea, hr1]
  refine ⟨⟨?_, ?_⟩, ?_⟩
  · intro b hb v hv
    rw [hareas] at hb
    rcases List.mem_append.mp hb with hbm | hbA
    · obtain ⟨pte, hpte, hfl, hpo⟩ := hcov b hbm v hv
      refine ⟨pte, ?_, hfl, hpo⟩
      rw [htr v, if_neg ?_]
      · exact hpte
      · intro hin
        have hd := hdisj b hbm
        rw [areasDisjoint] at hd
        rw [inArea] at hv hin
        omega
    · have hbA' : b = A := by simpa using hbA
      subst hbA'
      rw [hinA v] at hv
      refine ⟨⟨pushPpn a al v, a.map_perm⟩, ?_, by rw [hr3], hpol v hv⟩
      rw [htr v, if_pos hv]
  · intro v hv hvt
    rw [hareas] at hv
    have hva : ¬ inArea a v := by
      rw [← hinA v]
      exact hv A (List.mem_append.mpr (Or.inr (List.mem_cons_self A [])))
    rw [htr v, if_neg hva]
    exact hstray v (fun b hb => hv b (List.mem_append.mpr (Or.inl hb))) hvt
  · rw [hareas]
    rw [List.pairwise_append]
    refine ⟨hpair, List.pairwise_singleton _ A, ?_⟩
    intro b hb c hc
    have hcA : c = A := by simpa using hc
    subst hcA
    exact areasDisjoint_congr hr1 (hdisj b hb)

/-! Invariant preservation for removals. -/

theorem munmapRemove_Inv (m : MemorySet) (s e : Nat) (hInv : Inv m) :
    Inv ⟨(munmapRemove m s e).1, (munmapRemove m s e).2⟩ := by
  obtain ⟨⟨hcov, hstray⟩, hpair⟩ := hInv
  have hareas := munmapRemove_areas m s e
  have htr := munmapRemove_translate m s e
  refine ⟨⟨?_, ?_⟩, ?_⟩
  · intro b hb v hv
    rw [show (MemorySet.mk (munmapRemove m s e).1 (munmapRemove m s e).2).areas
      = (munmapRemove m s e).2 from rfl, hareas] at hb
    obtain ⟨hbm, hbov⟩ := List.mem_filter.mp hb
    rw [Bool.not_eq_true'] at hbov
    obtain ⟨pte, hpte, hfl, hpo⟩ := hcov b hbm v hv
    refine ⟨pte, ?_, hfl, hpo⟩
    show (munmapRemove m s e).1.translate v = some pte
    rw [htr v, if_neg ?_]
    · exact hpte
    · rintro ⟨a, ha, haov, hav⟩
      have hab : a ≠ b := by
        intro h
        rw [h, hbov] at haov
        exact absurd haov (by simp)
      have hd := List.Pairwise.forall (fun x y h => areasDisjoint_symm h)
        hpair ha hbm hab
      exact absurd hav (disjoint_not_inArea b a v (areasDisjoint_symm hd) hv)
  · intro v hv hvt
    show (munmapRemove m s e).1.translate v = none
    rw [htr v]
    by_cases hx : ∃ a ∈ m.areas,
        a.vpn_range.is_overlapped ⟨s, e⟩ = true ∧ inArea a v
    · rw [if_pos hx]
    · rw [if_neg hx]
      refine hstray v ?_ hvt
      intro a ha hav
      rcases hb : a.vpn_range.is_overlapped ⟨s, e⟩ with _ | _
      · refine hv a ?_ hav
        rw [show (MemorySet.mk (munmapRemove m s e).1 (munmapRemove m s e).2).areas
          = (munmapRemove m s e).2 from rfl, hareas]
        exact List.mem_filter.mpr ⟨ha, by rw [hb]; simp⟩
      · exact hx ⟨a, ha, hb, hav⟩
  · show List.Pairwise areasDisjoint (munmapRemove m s e).2
    rw [hareas]
    exact hpair.filter _

/-- `remove_area_with_start_vpn` either finds nothing or removes exactly the
first matching area, unmapping its pages. -/
theorem removeFirstStart_spec : ∀ (xs : List MapArea) (pt : PageTable) (v : Nat),
    ((∀ a ∈ xs, a.vpn_range.l ≠ v) ∧ removeFirstStart pt xs v = (pt, xs)) ∨
    (∃ ys a zs, xs = ys ++ a :: zs ∧ a.vpn_range.l = v ∧
      removeFirstStart pt xs v = ((a.unmap pt).2, ys ++ zs)) := by
  intro xs
  induction xs with
  | nil =>
      intro pt v
      exact Or.inl ⟨fun a ha => by simp at ha, rfl⟩
  | cons a rest ih =>
      intro pt v
      by_cases ha : a.vpn_range.l = v
      · refine Or.inr ⟨[], a, rest, by simp, ha, ?_⟩
        rw [removeFirstStart, if_pos ha]
        rfl
      · rcases ih pt v with ⟨hnone, heq⟩ | ⟨ys, b, zs, hxs, hb, heq⟩
        · refine Or.inl ⟨?_, ?_⟩
          · intro c hc
            rcases List.mem_cons.mp hc with rfl | hc'
            · exact ha
            · exact hnone c hc'
          · rw [removeFirstStart, if_neg ha, heq]
        · refine Or.inr ⟨a :: ys, b, zs, by rw [hxs]; rfl, hb, ?_⟩
          rw [removeFirstStart, if_neg ha, heq]
          rfl

/-- Unmapping and dropping one whole area preserves the invariant. -/
theorem drop_area_Inv (m : MemorySet) (ys zs : List MapArea) (a : MapArea)
    (hsplit : m.areas = ys ++ a :: zs) (hInv : Inv m) :
    Inv ⟨(a.unmap m.page_table).2, ys ++ zs⟩ := by
  obtain ⟨⟨hcov, hstray⟩, hpair⟩ := hInv
  have hsub : (ys ++ zs).Sublist m.areas := by
    rw [hsplit]
    exact List.Sublist.append_left (List.sublist_cons_self a zs) ys
  have hmem : ∀ b ∈ ys ++ zs, b ∈ m.areas := fun b hb => hsub.mem hb
  have hamem : a ∈ m.areas := by
    rw [hsplit]
    exact List.mem_append.mpr (Or.inr (List.mem_cons_self a zs))
  have hdisjmem : ∀ b ∈ ys ++ zs, b ≠ a → areasDisjoint a b := by
    intro b hb hba
    exact List.Pairwise.forall (fun x y h => areasDisjoint_symm h) hpair
      hamem (hmem b hb) (fun h => hba h.symm)
  refine ⟨⟨?_, ?_⟩, hpair.sublist hsub⟩
  · intro b hb v hv
    obtain ⟨pte, hpte, hfl, hpo⟩ := hcov b (hmem b hb) v hv
    refine ⟨pte, ?_, hfl, hpo⟩
    show (a.unmap m.page_table).2.translate v = some pte
    rw [area_unmap_translate, if_neg ?_]
    · exact hpte
    · intro hva
      by_cases hba : b = a
      · -- b = a : impossible, the sublist ys ++ zs omits one copy of a, but
        -- another equal element may remain; disjointness of distinct
        -- positions still forbids sharing v unless ranges are empty.
        subst hba
        -- two copies of b at distinct positions are pairwise disjoint,
        -- contradicting v lying in both
        have : areasDisjoint b b := by
          rw [hsplit] at hpair
          rcases List.mem_append.mp hb with hyb | hzb
          · rw [List.pairwise_append] at hpair
            exact hpair.2.2 b hyb b (List.mem_cons_self b zs)
          · rw [List.pairwise_append] at hpair
            have := (hpair.2.1).sublist (List.Sublist.refl _)
            rw [List.pairwise_cons] at this
            exact this.1 b hzb
        exact absurd hva (disjoint_not_inArea b b v this hv)
      · exact absurd hva
          (disjoint_not_inArea b a v (areasDisjoint_symm (hdisjmem b hb hba)) hv)
  · intro v hv hvt
    show (a.unmap m.page_table).2.translate v = none
    rw [area_unmap_translate]
    by_cases hva : inArea a v
    · rw [if_pos hva]
    · rw [if_neg hva]
      refine hstray v ?_ hvt
      intro b hb
      rw [hsplit] at hb
      rcases List.mem_append.mp hb with hyb | hbz
      · exact hv b (List.mem_append.mpr (Or.inl hyb))
      · rcases List.mem_cons.mp hbz with rfl | hzb
        · exact hva
        · exact hv b (List.mem_append.mpr (Or.inr hzb))

theorem remove_area_Inv (m : MemorySet) (v : Nat) (hInv : Inv m) :
    Inv (m.remove_area_with_start_vpn v) := by
  rw [MemorySet.remove_area_with_start_vpn]
  rcases removeFirstStart_spec m.areas m.page_table v with ⟨_, heq⟩ |
    ⟨ys, a, zs, hxs, _, heq⟩
  · rw [heq]
    exact hInv
  · rw [heq]
    exact drop_area_Inv m ys zs a hxs hInv

/-! State characterizations of the four map/unmap operations. -/

theorem mmap_state (m : MemorySet) (al s l p : Nat) :
    (m.mmap al s l p).2.1 = m ∨
    ((m.mmap al s l p).2.1 =
      (m.push (MapArea.new s (ceilVpn (s + l) * PAGE_SIZE) .Framed
        ((p <<< 1) ||| 0b10000)) al).1 ∧
      m.is_mapped_area (floorVpn s) (ceilVpn (s + l)) = false) := by
  rw [MemorySet.mmap]
  split_ifs with h1 h2 h3
  · exact Or.inl rfl
  · exact Or.inl rfl
  · exact Or.inl rfl
  · refine Or.inr ⟨rfl, ?_⟩
    rw [floorVpn_mul] at h3
    rcases hb : m.is_mapped_area (floorVpn s) (ceilVpn (s + l)) with _ | _
    · rfl
    · exact absurd hb h3

theorem munmap_state (m : MemorySet) (al s l : Nat) :
    (m.munmap al s l).2.1 = m ∨
    (m.munmap al s l).2.1 =
      ⟨(munmapRemove m (floorVpn s) (ceilVpn (s + l))).1,
       (munmapRemove m (floorVpn s) (ceilVpn (s + l))).2⟩ := by
  rw [MemorySet.munmap]
  split_ifs with h1
  · exact Or.inl rfl
  · cases hlc : loopCheck s (munmapCovered m (floorVpn s) (ceilVpn (s + l))) with
    | none => exact Or.inl rfl
    | some cur =>
        dsimp only
        split_ifs with h2
        · exact Or.inl rfl
        · exact Or.inr rfl

theorem mmio_map_state (m : MemorySet) (al s e p : Nat)
    (r : Except Int Int × MemorySet × Nat) (h : m.mmio_map al s e p = some r) :
    r.2.1 = m ∨
    (r.2.1 = (m.push (MapArea.new s (ceilVpn e * PAGE_SIZE) .Mmio
        ((p <<< 1) ||| 0b10000)) al).1 ∧
      m.is_mapped_area (floorVpn s) (ceilVpn e) = false) := by
  rw [MemorySet.mmio_map] at h
  split_ifs at h with h1 h2 h3 h4 h5
  · exact Or.inl (by rw [← Option.some.inj h])
  · exact Or.inl (by rw [← Option.some.inj h])
  · exact Or.inl (by rw [← Option.some.inj h])
  · exact Or.inl (by rw [← Option.some.inj h])
  · refine Or.inr ⟨by rw [← Option.some.inj h], ?_⟩
    rcases hb : m.is_mapped_area (floorVpn s) (ceilVpn e) with _ | _
    · rfl
    · exact absurd hb h5

theorem mmio_unmap_state (m : MemorySet) (al s e : Nat)
    (r : Except Int Int × MemorySet × Nat) (h : m.mmio_unmap al s e = some r) :
    r.2.1 = m ∨
    r.2.1 = ⟨(munmapRemove m (floorVpn s) (ceilVpn e)).1,
      (munmapRemove m (floorVpn s) (ceilVpn e)).2⟩ := by
  rw [MemorySet.mmio_unmap] at h
  split_ifs at h with h1 hes
  · exact Or.inl (by rw [← Option.some.inj h])
  · revert h
    cases hlc : loopCheck s (munmapCovered m (floorVpn s) (ceilVpn e)) with
    | none =>
        intro h
        exact Or.inl (by rw [← Option.some.inj h])
    | some cur =>
        dsimp only
        split_ifs with h2
        · intro h
          exact Or.inl (by rw [← Option.some.inj h])
        · intro h
          exact absurd h (by simp)
  · revert h
    cases hlc : loopCheck s (munmapCovered m (floorVpn s) (ceilVpn e)) with
    | none =>
        intro h
        exact Or.inl (by rw [← Option.some.inj h])
    | some cur =>
        dsimp only
        split_ifs with h2
        · intro h
          exact Or.inl (by rw [← Option.some.inj h])
        · intro h
          exact Or.inr (by rw [← Option.some.inj h])

/-! Invariant for the constructors. -/

theorem areasDisjoint_congr' {a a' b : MapArea}
    (hr : a'.vpn_range = a.vpn_range) (h : areasDisjoint a b) :
    areasDisjoint a' b := by
  rw [areasDisjoint] at *
  rw [hr]
  exact h

theorem bare_Inv (al : Nat) : Inv (MemorySet.new_bare al).1 := by
  refine ⟨⟨?_, ?_⟩, List.Pairwise.nil⟩
  · intro a ha
    exact absurd ha (by simp [MemorySet.new_bare])
  · intro v _ _
    rfl

theorem bare_tramp_Inv (al : Nat) :
    Inv (MemorySet.new_bare al).1.map_trampoline := by
  refine ⟨⟨?_, ?_⟩, List.Pairwise.nil⟩
  · intro a ha
    exact absurd ha (by simp [MemorySet.new_bare, MemorySet.map_trampoline])
  · intro v _ hvt
    show (PageTable.map _ TRAMP_VPN strampolinePpn _).translate v = none
    rw [translate_map, if_neg hvt]
    rfl

def specArea (s : Nat × Nat × MapType × Nat) : MapArea :=
  MapArea.new s.1 s.2.1 s.2.2.1 s.2.2.2

theorem pushSpecs_Inv : ∀ (specs : List (Nat × Nat × MapType × Nat))
    (m : MemorySet) (al : Nat),
    Inv m →
    (∀ s ∈ specs, ∀ b ∈ m.areas, areasDisjoint b (specArea s)) →
    List.Pairwise (fun s t => areasDisjoint (specArea s) (specArea t)) specs →
    Inv (pushSpecs specs m al).1 := by
  intro specs
  induction specs with
  | nil => intro m al hInv _ _; exact hInv
  | cons s rest ih =>
      intro m al hInv hdisj hpair
      rw [List.pairwise_cons] at hpair
      obtain ⟨hhead, htail⟩ := hpair
      rw [pushSpecs]
      have hInv1 := push_preserves_Inv m (specArea s) al hInv rfl
        (hdisj s (List.mem_cons_self s rest))
      obtain ⟨A, hareas, hr1, _, _, _, _⟩ := push_char m (specArea s) al rfl
      refine ih _ _ hInv1 ?_ htail
      intro t ht b hb
      rw [show (m.push (MapArea.new s.1 s.2.1 s.2.2.1 s.2.2.2) al).1.areas
        = (m.push (specArea s) al).1.areas from rfl, hareas] at hb
      rcases List.mem_append.mp hb with hbm | hbA
      · exact hdisj t (List.mem_cons_of_mem s ht) b hbm
      · have hba : b = A := by simpa using hbA
        subst hba
        exact areasDisjoint_symm (areasDisjoint_congr hr1
          (areasDisjoint_symm (hhead t ht)))

theorem new_kernel_Inv (k : KernelSections) (al : Nat)
    (h : List.Pairwise (fun s t => areasDisjoint (specArea s) (specArea t))
      (kernelSpecs k)) :
    Inv (MemorySet.new_kernel k al).1 := by
  rw [MemorySet.new_kernel]
  refine pushSpecs_Inv (kernelSpecs k) _ _ (bare_tramp_Inv al) ?_ h
  intro s _ b hb
  exact absurd hb (by simp [MemorySet.new_bare, MemorySet.map_trampoline])

def segArea (s : LoadSeg) : MapArea :=
  MapArea.new s.vaddr (s.vaddr + s.mem_size) .Framed (segPerm s)

theorem segArea_rng (s : LoadSeg) :
    (segArea s).vpn_range = ⟨floorVpn s.vaddr, segEndVpn s⟩ := rfl

theorem elfLoadFold_Inv : ∀ (segs : List LoadSeg) (m : MemorySet) (al mE : Nat),
    Inv m → elfSorted segs →
    (∀ b ∈ m.areas, ∀ s ∈ segs, b.vpn_range.r ≤ floorVpn s.vaddr) →
    Inv (elfLoadFold segs m al mE).1 ∧
    (∀ b ∈ (elfLoadFold segs m al mE).1.areas,
      b ∈ m.areas ∨ ∃ s ∈ segs, b.vpn_range.r = segEndVpn s) := by
  intro segs
  induction segs with
  | nil =>
      intro m al mE hInv _ _
      exact ⟨hInv, fun b hb => Or.inl hb⟩
  | cons s rest ih =>
      intro m al mE hInv hsorted hbound
      simp only [elfSorted, List.pairwise_cons] at hsorted
      obtain ⟨hhead, htail⟩ := hsorted
      rw [elfLoadFold]
      have hdisj1 : ∀ b ∈ m.areas, areasDisjoint b (segArea s) := by
        intro b hb
        rw [areasDisjoint, segArea_rng]
        exact Or.inr (hbound b hb s (List.mem_cons_self s rest))
      have hInv1 := push_preserves_Inv m (segArea s) al hInv rfl hdisj1
      obtain ⟨A, hareas, hr1, _, _, _, _⟩ := push_char m (segArea s) al rfl
      have hAr : A.vpn_range.r = segEndVpn s := by
        rw [hr1, segArea_rng]
      have hside : ∀ b ∈ (m.push (segArea s) al).1.areas, ∀ t ∈ rest,
          b.vpn_range.r ≤ floorVpn t.vaddr := by
        intro b hb t ht
        rw [hareas] at hb
        rcases List.mem_append.mp hb with hbm | hbA
        · exact hbound b hbm t (List.mem_cons_of_mem s ht)
        · have hba : b = A := by simpa using hbA
          subst hba
          rw [hAr]
          exact hhead t ht
      obtain ⟨hInv2, hmem2⟩ := ih (m.push (segArea s) al).1
        (m.push (segArea s) al).2 (segArea s).vpn_range.r hInv1 htail hside
      refine ⟨hInv2, ?_⟩
      intro b hb
      rcases hmem2 b hb with hbm | ⟨t, ht, hbr⟩
      · rw [hareas] at hbm
        rcases List.mem_append.mp hbm with hbm' | hbA
        · exact Or.inl hbm'
        · have hba : b = A := by simpa using hbA
          subst hba
          exact Or.inr ⟨s, List.mem_cons_self s rest, hAr⟩
      · exact Or.inr ⟨t, List.mem_cons_of_mem s ht, hbr⟩

theorem elfLoadFold_le_max : ∀ (segs : List LoadSeg) (m : MemorySet) (al : Nat),
    elfSorted segs →
    (elfLoadFold segs m al 0).2.2 ≤ maxEndVpn segs := by
  intro segs m al hsorted
  cases hne : segs with
  | nil => exact Nat.zero_le _
  | cons s rest =>
      rw [← hne]
      rw [elfLoadFold_end segs m al 0 hsorted (by rw [hne]; simp)]

theorem from_elf_Inv (img : ElfImage) (al : Nat)
    (hs : elfSorted img.segs)
    (hfit : maxEndVpn img.segs + 1 + USER_STACK_SIZE / PAGE_SIZE ≤
      TRAP_CONTEXT / PAGE_SIZE)
    (r : MemorySet × Nat × Nat × Nat)
    (h : MemorySet.from_elf img al = some r) : Inv r.1 := by
  rcases hmg : img.magicOk with _ | _
  · rw [MemorySet.from_elf, if_pos hmg] at h
    exact absurd h (by simp)
  · rw [MemorySet.from_elf, if_neg (by simp [hmg])] at h
    have hr := (Option.some.inj h).symm
    set b := MemorySet.new_bare al with hb
    set r1 := elfLoadFold img.segs b.1.map_trampoline b.2 0 with hr1def
    obtain ⟨hInv1, hmem1⟩ := elfLoadFold_Inv img.segs b.1.map_trampoline b.2 0
      (bare_tramp_Inv al) hs
      (fun c hc =>
        absurd hc (by simp [hb, MemorySet.new_bare, MemorySet.map_trampoline]))
    rw [← hr1def] at hInv1 hmem1
    have hbound : ∀ c ∈ r1.1.areas, c.vpn_range.r ≤ maxEndVpn img.segs := by
      intro c hc
      rcases hmem1 c hc with hcm | ⟨t, ht, hcr⟩
      · exact absurd hcm (by simp [hb, MemorySet.new_bare, MemorySet.map_trampoline])
      · rw [hcr]
        exact mem_le_maxEndVpn img.segs t ht
    have hmE : r1.2.2 = maxEndVpn img.segs := by
      rw [hr1def]
      cases hsegs : img.segs with
      | nil => rfl
      | cons s rest =>
          rw [← hsegs]
          exact elfLoadFold_end img.segs b.1.map_trampoline b.2 0 hs
            (by rw [hsegs]; simp)
    set aStk : MapArea := MapArea.new (r1.2.2 * PAGE_SIZE + PAGE_SIZE)
      (r1.2.2 * PAGE_SIZE + PAGE_SIZE + USER_STACK_SIZE) .Framed
      (MapPermission.R ||| MapPermission.W ||| MapPermission.U) with haStk
    have hStkRng : aStk.vpn_range =
        ⟨r1.2.2 + 1, r1.2.2 + 1 + USER_STACK_SIZE / PAGE_SIZE⟩ := by
      rw [haStk, MapArea.new, VPNRange.mk.injEq]
      simp only [floorVpn, ceilVpn, USER_STACK_SIZE, PAGE_SIZE]
      omega
    have hdisjStk : ∀ c ∈ r1.1.areas, areasDisjoint c aStk := by
      intro c hc
      rw [areasDisjoint, hStkRng]
      refine Or.inr ?_
      have := hbound c hc
      simp only
      omega
    have hInv2 := push_preserves_Inv r1.1 aStk r1.2.1 hInv1 rfl hdisjStk
    obtain ⟨AS, hareas2, hrs1, _, _, _, _⟩ := push_char r1.1 aStk r1.2.1 rfl
    set aTc : MapArea := MapArea.new TRAP_CONTEXT TRAMPOLINE .Framed
      (MapPermission.R ||| MapPermission.W) with haTc
    have hTcl : aTc.vpn_range.l = TRAP_CONTEXT / PAGE_SIZE := rfl
    have hdisjTc : ∀ c ∈ (r1.1.push aStk r1.2.1).1.areas, areasDisjoint c aTc := by
      intro c hc
      rw [hareas2] at hc
      refine Or.inr ?_
      rw [hTcl]
      simp only [USER_STACK_SIZE, PAGE_SIZE, TRAP_CONTEXT, TRAMPOLINE] at hfit ⊢
      rcases List.mem_append.mp hc with hcm | hcA
      · have := hbound c hcm
        omega
      · have hca : c = AS := by simpa using hcA
        subst hca
        rw [hrs1, hStkRng]
        simp only [USER_STACK_SIZE, PAGE_SIZE]
        omega
    have hInv3 := push_preserves_Inv (r1.1.push aStk r1.2.1).1 aTc
      (r1.1.push aStk r1.2.1).2 hInv2 rfl hdisjTc
    rw [hr]
    exact hInv3

/-! Invariant for cloning. -/

theorem copyRange_isSome : ∀ (vs : List Nat) (src dst : MemorySet) (mem : Mem),
    (∀ v ∈ vs, (src.translate v).isSome ∧ (dst.translate v).isSome) →
    ∃ mem', copyRange src dst vs mem = some mem' := by
  intro vs
  induction vs with
  | nil => intro src dst mem _; exact ⟨mem, rfl⟩
  | cons v rest ih =>
      intro src dst mem hsome
      obtain ⟨hs, hd⟩ := hsome v (List.mem_cons_self v rest)
      rcases hsv : src.translate v with _ | p
      · rw [hsv] at hs; exact absurd hs (by simp)
      · rcases hdv : dst.translate v with _ | q
        · rw [hdv] at hd; exact absurd hd (by simp)
        · obtain ⟨mem', hmem'⟩ := ih src dst (memCopy mem q.ppn p.ppn)
            (fun w hw => hsome w (List.mem_cons_of_mem v hw))
          refine ⟨mem', ?_⟩
          rw [copyRange, hsv, hdv]
          exact hmem'

theorem cloneFold_Inv : ∀ (areas : List MapArea) (src cur : MemorySet)
    (alc : Nat) (mem : Mem),
    Inv cur →
    List.Pairwise areasDisjoint areas →
    (∀ a ∈ areas, ∀ b ∈ cur.areas, areasDisjoint b a) →
    (∀ a ∈ areas, ∀ v, inArea a v → (src.translate v).isSome) →
    ∃ r, cloneAreasFold src areas cur alc mem = some r ∧ Inv r.1 := by
  intro areas
  induction areas with
  | nil =>
      intro src cur alc mem hInv _ _ _
      exact ⟨(cur, alc, mem), rfl, hInv⟩
  | cons a rest ih =>
      intro src cur alc mem hInv hpair hdisj hsome
      rw [List.pairwise_cons] at hpair
      obtain ⟨hhead, htail⟩ := hpair
      have hfr : a.from_another.vpn_range = a.vpn_range := rfl
      have hdisj1 : ∀ b ∈ cur.areas, areasDisjoint b a.from_another := by
        intro b hb
        exact areasDisjoint_congr hfr (hdisj a (List.mem_cons_self a rest) b hb)
      have hInv1 := push_preserves_Inv cur a.from_another alc hInv rfl hdisj1
      obtain ⟨A, hareas, hr1, _, _, htr, _⟩ := push_char cur a.from_another alc rfl
      have hboth : ∀ v ∈ vpnList a.vpn_range,
          (src.translate v).isSome ∧
          ((cur.push a.from_another alc).1.translate v).isSome := by
        intro v hv
        have hva : inArea a v := (mem_vpnList a.vpn_range v).mp hv
        have hva' : inArea a.from_another v := by
          rw [inArea, hfr]
          exact hva
        refine ⟨hsome a (List.mem_cons_self a rest) v hva, ?_⟩
        rw [htr v, if_pos hva']
        simp
      obtain ⟨mem1, hcopy⟩ := copyRange_isSome (vpnList a.vpn_range) src
        (cur.push a.from_another alc).1 mem hboth
      have hdisj2 : ∀ c ∈ rest, ∀ b ∈ (cur.push a.from_another alc).1.areas,
          areasDisjoint b c := by
        intro c hc b hb
        rw [hareas] at hb
        rcases List.mem_append.mp hb with hbm | hbA
        · exact hdisj c (List.mem_cons_of_mem a hc) b hbm
        · have hba : b = A := by simpa using hbA
          subst hba
          exact areasDisjoint_congr' hr1 (areasDisjoint_congr' hfr (hhead c hc))
      obtain ⟨rr, hrr, hInvr⟩ := ih src (cur.push a.from_another alc).1
        (cur.push a.from_another alc).2 mem1 hInv1 htail hdisj2
        (fun c hc v hv => hsome c (List.mem_cons_of_mem a hc) v hv)
      refine ⟨rr, ?_, hInvr⟩
      rw [cloneAreasFold]
      show (match copyRange src (cur.push a.from_another alc).1
          (vpnList a.vpn_range) mem with
        | none => none
        | some mem' => cloneAreasFold src rest (cur.push a.from_another alc).1
            (cur.push a.from_another alc).2 mem') = _
      rw [hcopy]
      exact hrr

theorem from_existed_user_Inv (src : MemorySet) (al : Nat) (mem : Mem)
    (hsrc : Inv src) (r : MemorySet × Nat × Mem)
    (h : MemorySet.from_existed_user src al mem = some r) : Inv r.1 := by
  obtain ⟨r', hr', hInv⟩ := cloneFold_Inv src.areas src
    (MemorySet.new_bare al).1.map_trampoline (MemorySet.new_bare al).2 mem
    (bare_tramp_Inv al) hsrc.2
    (fun a _ b hb =>
      absurd hb (by simp [MemorySet.new_bare, MemorySet.map_trampoline]))
    (fun a ha v hv => by
      obtain ⟨pte, hpte, _, _⟩ := hsrc.1.1 a ha v hv
      rw [hpte]
      simp)
  rw [MemorySet.from_existed_user] at h
  have heq : r' = r := Option.some.inj (hr'.symm.trans h)
  rw [← heq]
  exact hInv

/-- An area whose page range is reported unmapped is disjoint from every
existing area. -/
theorem not_mapped_disjoint (m : MemorySet) (l r : Nat) (a : MapArea)
    (hrng : a.vpn_range = ⟨l, r⟩) (h : m.is_mapped_area l r = false) :
    ∀ b ∈ m.areas, areasDisjoint b a := by
  intro b hb
  rcases hov : b.vpn_range.is_overlapped ⟨l, r⟩ with _ | _
  · have hd := (not_overlapped_iff b.vpn_range ⟨l, r⟩).mp hov
    rw [areasDisjoint, hrng]
    exact hd
  · have ht := (is_mapped_area_iff m l r).mpr ⟨b, hb, hov⟩
    rw [h] at ht
    exact Bool.noConfusion ht

/-- The states reachable by the public `MemorySet` operations other than
`recycle_data_pages`, paired with the frame-allocator counter.  The
constructor side conditions are the well-formedness assumptions under which
each constructor is actually invoked by the kernel: `new_kernel`'s section
descriptors are pairwise disjoint, `from_elf`'s LOAD segments appear in
ascending virtual-address order (the ELF gABI guarantee) and leave room for
the user stack below `TRAP_CONTEXT`, and `insert_framed_area` is only called
on a range reported unmapped. -/
inductive ReachableCore : MemorySet → Nat → Prop where
  | bare (al : Nat) (r : MemorySet × Nat)
      (he : MemorySet.new_bare al = r) :
      ReachableCore r.1 r.2
  | kernel (k : KernelSections) (al : Nat) (r : MemorySet × Nat)
      (hk : List.Pairwise (fun s t => areasDisjoint (specArea s) (specArea t))
        (kernelSpecs k))
      (he : MemorySet.new_kernel k al = r) :
      ReachableCore r.1 r.2
  | elf (img : ElfImage) (al : Nat) (r : MemorySet × Nat × Nat × Nat)
      (hs : elfSorted img.segs)
      (hfit : maxEndVpn img.segs + 1 + USER_STACK_SIZE / PAGE_SIZE ≤
        TRAP_CONTEXT / PAGE_SIZE)
      (h : MemorySet.from_elf img al = some r) :
      ReachableCore r.1 r.2.1
  | clone (src : MemorySet) (al0 al : Nat) (mem : Mem)
      (r : MemorySet × Nat × Mem)
      (hsrc : ReachableCore src al0)
      (h : MemorySet.from_existed_user src al mem = some r) :
      ReachableCore r.1 r.2.1
  | insertArea (m : MemorySet) (al s e perm : Nat) (r : MemorySet × Nat)
      (hm : ReachableCore m al)
      (hfree : m.is_mapped_area (floorVpn s) (ceilVpn e) = false)
      (he : m.insert_framed_area al s e perm = r) :
      ReachableCore r.1 r.2
  | removeArea (m : MemorySet) (al v : Nat) (m' : MemorySet)
      (hm : ReachableCore m al)
      (he : m.remove_area_with_start_vpn v = m') :
      ReachableCore m' al
  | mmap (m : MemorySet) (al s l p : Nat)
      (r : Except Int Int × MemorySet × Nat)
      (hm : ReachableCore m al)
      (he : m.mmap al s l p = r) :
      ReachableCore r.2.1 r.2.2
  | munmap (m : MemorySet) (al s l : Nat)
      (r : Except Int Int × MemorySet × Nat)
      (hm : ReachableCore m al)
      (he : m.munmap al s l = r) :
      ReachableCore r.2.1 r.2.2
  | mmioMap (m : MemorySet) (al s e p : Nat)
      (r : Except Int Int × MemorySet × Nat)
      (hm : ReachableCore m al) (h : m.mmio_map al s e p = some r) :
      ReachableCore r.2.1 r.2.2
  | mmioUnmap (m : MemorySet) (al s e : Nat)
      (r : Except Int Int × MemorySet × Nat)
      (hm : ReachableCore m al) (h : m.mmio_unmap al s e = some r) :
      ReachableCore r.2.1 r.2.2

/-- Reachability by the full public interface: `ReachableCore` states plus
`recycle_data_pages`. -/
inductive ReachablePub : MemorySet → Nat → Prop where
  | core (m : MemorySet) (al : Nat) (h : ReachableCore m al) :
      ReachablePub m al
  | recycle (m : MemorySet) (al : Nat) (r : MemorySet × List Nat)
      (hm : ReachablePub m al)
      (he : m.recycle_data_pages = r) :
      ReachablePub r.1 al

/-- Every `ReachableCore` state satisfies the strengthened invariant. -/
theorem reachable_Inv : ∀ (m : MemorySet) (al : Nat),
    ReachableCore m al → Inv m := by
  intro m al h
  induction h with
  | bare al r he =>
      rw [← he]
      exact bare_Inv al
  | kernel k al r hk he =>
      rw [← he]
      exact new_kernel_Inv k al hk
  | elf img al r hs hfit h => exact from_elf_Inv img al hs hfit r h
  | clone src al0 al mem r hsrc h ih =>
      exact from_existed_user_Inv src al mem ih r h
  | insertArea m al s e perm r hm hfree he ih =>
      rw [← he]
      exact push_preserves_Inv m (MapArea.new s e .Framed perm) al ih rfl
        (not_mapped_disjoint m (floorVpn s) (ceilVpn e) _ rfl hfree)
  | removeArea m al v m' hm he ih =>
      rw [← he]
      exact remove_area_Inv m v ih
  | mmap m al s l p r hm he ih =>
      rw [← he]
      rcases mmap_state m al s l p with he2 | ⟨he2, hfree⟩
      · rw [he2]; exact ih
      · rw [he2]
        refine push_preserves_Inv m _ al ih rfl
          (not_mapped_disjoint m (floorVpn s) (ceilVpn (s + l)) _ ?_ hfree)
        show (⟨floorVpn s, ceilVpn (ceilVpn (s + l) * PAGE_SIZE)⟩ : VPNRange) = _
        rw [ceilVpn_mul]
  | munmap m al s l r hm he ih =>
      rw [← he]
      rcases munmap_state m al s l with he2 | he2
      · rw [he2]; exact ih
      · rw [he2]
        exact munmapRemove_Inv m (floorVpn s) (ceilVpn (s + l)) ih
  | mmioMap m al s e p r hm h ih =>
      rcases mmio_map_state m al s e p r h with he | ⟨he, hfree⟩
      · rw [he]; exact ih
      · rw [he]
        refine push_preserves_Inv m _ al ih rfl
          (not_mapped_disjoint m (floorVpn s) (ceilVpn e) _ ?_ hfree)
        show (⟨floorVpn s, ceilVpn (ceilVpn e * PAGE_SIZE)⟩ : VPNRange) = _
        rw [ceilVpn_mul]
  | mmioUnmap m al s e r hm h ih =>
      rcases mmio_unmap_state m al s e r h with he | he
      · rw [he]; exact ih
      · rw [he]
        exact munmapRemove_Inv m (floorVpn s) (ceilVpn e) ih

/-- Claim C5: in every `MemorySet` state reachable by the public operations
other than `recycle_data_pages` (`new_bare`, `new_kernel` on pairwise
disjoint sections, `from_elf` on a gABI-ordered image fitting below
`TRAP_CONTEXT`, `from_existed_user`, `insert_framed_area` on an unmapped
range, `remove_area_with_start_vpn`, `mmap`, `munmap`, `mmio_map`,
`mmio_unmap`), every VPN lying in some area's range translates to a valid
entry matching that area's policy and permission bits, and every VPN lying
in no area has no entry, the trampoline VPN excepted.  `recycle_data_pages`
itself breaks the invariant (see the counterexample). -/
theorem claim_C5_invariant (m : MemorySet) (al : Nat)
    (h : ReachableCore m al) : ClaimInv m :=
  (reachable_Inv m al h).1

theorem claim_C5_invariant_witness : ClaimInv (MemorySet.new_bare 0).1 :=
  claim_C5_invariant (MemorySet.new_bare 0).1 (MemorySet.new_bare 0).2
    (ReachableCore.bare 0 (MemorySet.new_bare 0) rfl)

/-- `recycle_data_pages` reaches a state violating the invariant: after
`insert_framed_area` of one page at 0x1000 and then `recycle_data_pages`,
VPN 1 lies in no area yet still translates. -/
theorem claim_C5_counterexample :
    ReachablePub
      (((MemorySet.new_bare 0).1.insert_framed_area (MemorySet.new_bare 0).2
        0x1000 0x2000 18).1.recycle_data_pages).1
      ((MemorySet.new_bare 0).1.insert_framed_area (MemorySet.new_bare 0).2
        0x1000 0x2000 18).2 ∧
    ¬ ClaimInv
      (((MemorySet.new_bare 0).1.insert_framed_area (MemorySet.new_bare 0).2
        0x1000 0x2000 18).1.recycle_data_pages).1 := by
  constructor
  · exact ReachablePub.recycle _ _ _
      (ReachablePub.core _ _
        (ReachableCore.insertArea (MemorySet.new_bare 0).1
          (MemorySet.new_bare 0).2 0x1000 0x2000 18 _
          (ReachableCore.bare 0 (MemorySet.new_bare 0) rfl) rfl rfl))
      rfl
  · intro hc
    have h2 := hc.2 1 (fun a ha => absurd ha (List.not_mem_nil a))
      (by decide)
    rw [show
      (((MemorySet.new_bare 0).1.insert_framed_area (MemorySet.new_bare 0).2
        0x1000 0x2000 18).1.recycle_data_pages).1.translate 1 = some ⟨1, 18⟩
      from rfl] at h2
    exact Option.noConfusion h2

end RCoreN
